import Mathlib

/-!
# Ctream: a verification development for `include/ctream.hpp`

Shallow embedding of the collectors, the lazy pipeline and the fork-join
`collect` of the Ctream library.

* A type-erased handle (`void const*`) is modelled by `Option H`: `none` is the
  null pointer (element filtered out), `some v` a pointer to the value `v`.
* `std::vector` and `std::list` are modelled by `List`.
* `std::thread::hardware_concurrency()` is a parameter `hc` of the terminals.
* The workers of the parallel branch only write their own chunk, so each chunk
  is the result of running the worker's loop on its own index range.
-/

namespace ctream

/-! ## `internal::Optional` and the tuning constants -/

/-- Optional value template of the library: `Optional()` is `val{T()}, set{false}`. -/
structure Optional (T : Type) where
  val : T
  set : Bool
  deriving DecidableEq

namespace fine_tuning

/-- Default of `CTREAM_MULTITHREAD_MIN_SIZE`. -/
def MULTITHREAD_MIN_SIZE : Nat := 800

/-- The `constexpr size_t THREADS_PER_CORE` of `collect` (converted from the double `2`). -/
def THREADS_PER_CORE : Nat := 2

/-- Default of `CTREAM_PAGE_SIZE`, `1 << 16`. -/
def PAGE_SIZE : Nat := 2 ^ 16

end fine_tuning

/-! ## Collectors -/

/-- The four operations of `collectors::Collector<T, A, R>`. The in-place
operations `accumulate(a, b)` and `combine(a, b)` return the new value of `a`. -/
structure Collector (T A R : Type) where
  supply : A
  accumulate : A → T → A
  combine : A → A → A
  finish : A → R

/-- The laws that make the combine phase agree with one sequential accumulation,
required on the accumulators satisfying the invariant `P`. -/
structure Collector.Lawful {T A R : Type} (c : Collector T A R) (P : A → Prop) : Prop where
  supply : P c.supply
  accumulate : ∀ a x, P a → P (c.accumulate a x)
  combine_supply : ∀ a, P a → c.combine a c.supply = a
  combine_accumulate : ∀ a b x, P a → P b →
    c.combine a (c.accumulate b x) = c.accumulate (c.combine a b) x

namespace collectors

/-- `Sum<T>`: `supply` is `0`, `accumulate` and `combine` are `a += b`. -/
def Sum (T : Type) [Zero T] [Add T] : Collector T T T where
  supply := 0
  accumulate a b := a + b
  combine a b := a + b
  finish a := a

/-- `Product<T>`: `supply` is `T{1}`, `accumulate` and `combine` are `a *= b`. -/
def Product (T : Type) [One T] [Mul T] : Collector T T T where
  supply := 1
  accumulate a b := a * b
  combine a b := a * b
  finish a := a

/-- `Sum<T>` for an unsigned `w`-bit `T`: every `+=` wraps modulo `2^w`. -/
def SumMod (w : Nat) : Collector Nat Nat Nat where
  supply := 0
  accumulate a b := (a + b) % 2 ^ w
  combine a b := (a + b) % 2 ^ w
  finish a := a

/-- `Product<T>` for an unsigned `w`-bit `T`: every `*=` wraps modulo `2^w`. -/
def ProductMod (w : Nat) : Collector Nat Nat Nat where
  supply := 1 % 2 ^ w
  accumulate a b := (a * b) % 2 ^ w
  combine a b := (a * b) % 2 ^ w
  finish a := a

/-- `Min<T>` with comparison `m_comp`; `T{}` is `default`. -/
def Min (T : Type) [Inhabited T] (m_comp : T → T → Bool) : Collector T (Optional T) T where
  supply := ⟨default, false⟩
  accumulate a b := if !a.set || m_comp b a.val then ⟨b, true⟩ else a
  combine a b := if !a.set || (b.set && m_comp b.val a.val) then b else a
  finish a := if a.set then a.val else default

/-- `Max<T>` with comparison `m_comp`; `T{}` is `default`. -/
def Max (T : Type) [Inhabited T] (m_comp : T → T → Bool) : Collector T (Optional T) T where
  supply := ⟨default, false⟩
  accumulate a b := if !a.set || m_comp a.val b then ⟨b, true⟩ else a
  combine a b := if !a.set || (b.set && m_comp a.val b.val) then b else a
  finish a := if a.set then a.val else default

/-- The comparison installed by the default constructors `Min()` and `Max()`: `a < b`. -/
def defaultComp (a b : Int) : Bool := decide (a < b)

/-- `ToList<T>`: `emplace_back`, and `splice` at the end for `combine`. -/
def ToList (T : Type) : Collector T (List T) (List T) where
  supply := []
  accumulate a b := a ++ [b]
  combine a b := a ++ b
  finish a := a

/-- `std::vector::reserve`: changes the capacity only, never the elements. -/
def reserve {T : Type} (vec : List T) (_n : Nat) : List T := vec

/-- `ToVector<T>{m_chunkSize}`: `supply` reserves `m_chunkSize` slots when it is
non-zero, `accumulate` is `emplace_back`, `combine` inserts `b` at the end of `a`. -/
def ToVector (T : Type) (m_chunkSize : Nat) : Collector T (List T) (List T) where
  supply := if m_chunkSize ≠ 0 then reserve [] m_chunkSize else []
  accumulate a b := a ++ [b]
  combine a b := a ++ b
  finish a := a

/-- Invariant of the accumulators of `Min` and `Max`: an unset `Optional` is the
default-constructed one. -/
def OptionalOk (a : Optional Int) : Prop := a.set = false → a.val = default

end collectors

/-! ## The arena -/

/-- The conversion `long(x)` of a `size_t` value (both 64 bits wide). -/
def toLong (x : Nat) : Int := if x < 2 ^ 63 then (x : Int) else (x : Int) - 2 ^ 64

/-- The conversion of a `long` to `size_t`, as done by a comparison of a `long`
with a `size_t`. -/
def toSizeT (x : Int) : Nat := (x % 2 ^ 64).toNat

/-- An address inside the arena: the block that `malloc` returned for a page
(blocks are numbered in the order in which they are obtained) and the byte offset
in that block. -/
structure Address where
  block : Nat
  offset : Nat
  deriving DecidableEq

/-- `BasicArena::Page` (the mutex apart): `data` is the block of the page. -/
structure Page where
  data : Nat
  cursor : Nat
  size : Nat
  deriving DecidableEq

/-- `BasicArena::ArenaPtr`: the object and the destructor to call on it, the
instantiation `voidDeleterUseWithCaution<U>` being named by a number. -/
structure ArenaPtr where
  ptr : Address
  delFct : Nat
  deriving DecidableEq

/-- `BasicArena`: the list of pages and the destructor log. -/
structure BasicArena where
  m_pages : List Page
  m_objects : List ArenaPtr
  deriving DecidableEq

namespace BasicArena

/-- `BasicArena()`: no page, no object. -/
def empty : BasicArena := ⟨[], []⟩

/-- `initPage(minSize, out)`; `block` is what `malloc(out.size)` returns. -/
def initPage (minSize : Nat) (block : Nat) : Page where
  size := if minSize > fine_tuning.PAGE_SIZE then minSize else fine_tuning.PAGE_SIZE
  cursor := 0
  data := block

/-- `occupiedSizeOnPage(p)`. -/
def occupiedSizeOnPage (p : Page) : Int := toLong p.cursor

/-- `availableSizeOnPage(p)`. -/
def availableSizeOnPage (p : Page) : Int := toLong p.size - occupiedSizeOnPage p

/-- The search loop of `firstAvailablePage`: position of the first page with
`availableSizeOnPage(p) > size`, the `long` being converted to `size_t`. -/
def firstAvailableIndex (size : Nat) : List Page → Option Nat
  | [] => none
  | p :: ps =>
    if toSizeT (availableSizeOnPage p) > size then some 0
    else (firstAvailableIndex size ps).map (fun i => i + 1)

/-- `firstAvailablePage(size)`: the arena, with a new page appended when the search
fails, and the position of the page returned. -/
def firstAvailablePage (a : BasicArena) (size : Nat) : BasicArena × Nat :=
  match firstAvailableIndex size a.m_pages with
  | some i => (a, i)
  | none => (⟨a.m_pages ++ [initPage size a.m_pages.length], a.m_objects⟩, a.m_pages.length)

/-- `allocate(size)`: the address `page.data + page.cursor` and the arena after
`page.cursor += size`. -/
def allocate (a : BasicArena) (size : Nat) : Address × BasicArena :=
  let r := firstAvailablePage a size
  match r.1.m_pages[r.2]? with
  | none => (⟨0, 0⟩, r.1)
  | some page =>
    (⟨page.data, page.cursor⟩,
      ⟨r.1.m_pages.set r.2 ⟨page.data, (page.cursor + size) % 2 ^ 64, page.size⟩,
        r.1.m_objects⟩)

/-- `construct<U>(args)`: allocates `sizeof(U)` bytes and logs the destructor. -/
def construct (a : BasicArena) (sizeofU delFct : Nat) : Address × BasicArena :=
  let r := allocate a sizeofU
  (r.1, ⟨r.2.m_pages, r.2.m_objects ++ [⟨r.1, delFct⟩]⟩)

end BasicArena

/-- A region handed out by `allocate(size)`: its address and its size. -/
structure Region where
  addr : Address
  size : Nat
  deriving DecidableEq

/-- The byte at `ad` belongs to the region `r`. -/
def Region.contains (r : Region) (ad : Address) : Prop :=
  ad.block = r.addr.block ∧ r.addr.offset ≤ ad.offset ∧ ad.offset < r.addr.offset + r.size

/-- A sequence of `allocate` calls with the given sizes: the regions handed out,
in call order, and the arena afterwards. -/
def allocateAll : BasicArena → List Nat → List Region × BasicArena
  | a, [] => ([], a)
  | a, size :: rest =>
    let r := a.allocate size
    let t := allocateAll r.2 rest
    (⟨r.1, size⟩ :: t.1, t.2)

/-- What holds of the page at position `i` of every reachable arena: its block is
the `i`-th one, the cursor is within the capacity, the capacity is a `size_t`, and
a page whose capacity does not fit a `long` is full. -/
def PageOk (i : Nat) (p : Page) : Prop :=
  p.data = i ∧ p.cursor ≤ p.size ∧ p.size < 2 ^ 64 ∧ (2 ^ 63 ≤ p.size → p.cursor = p.size)

/-- Every page of the arena satisfies `PageOk`. -/
def BasicArena.Ok (a : BasicArena) : Prop :=
  ∀ i p, a.m_pages[i]? = some p → PageOk i p

/-- The regions `r` and `r'` have no byte in common. -/
def Region.noCommonByte (r r' : Region) : Prop :=
  ∀ ad : Address, ¬ (r.contains ad ∧ r'.contains ad)

/-- The pages of `a` are still pages of `a'`, at the same position, with the same
block and capacity, and a cursor that did not move back. -/
def BasicArena.GrowsTo (a a' : BasicArena) : Prop :=
  ∀ (i : Nat) (p : Page), a.m_pages[i]? = some p →
    ∃ p' : Page, a'.m_pages[i]? = some p' ∧ p'.data = p.data ∧ p'.size = p.size
      ∧ p.cursor ≤ p'.cursor

/-! ## The stream and its pipeline -/

/-- One pipeline step, `std::function<void const*(void const*)>`; it is only ever
called on a non-null handle. -/
abbrev PipelineStep (H : Type) := H → Option H

/-- The data members of `Ctream<T>`. `m_arena` names the shared arena (a root stream
gets its own arena, `new Arena`, named `0` in its lineage); `m_sourceData i` is
`none` where the accessor has no element (`values.at(i)` out of range). -/
structure Ctream (H : Type) where
  m_arena : Nat := 0
  m_sourceData : Nat → Option H
  m_containerSize : Nat
  m_pipeline : List (PipelineStep H)

/-- `toCtream(vec)`: the accessor is `values.at(i)`, the size `values.size()`. -/
def toCtream {H : Type} (values : List H) : Ctream H where
  m_sourceData i := values[i]?
  m_containerSize := values.length
  m_pipeline := []

namespace Ctream

variable {H A R : Type}

/-- Internal constructor: copies the previous pipeline and appends the new step. -/
def internalCtor (arena : Nat) (containerSize : Nat) (sourceData : Nat → Option H)
    (previousPipeline : List (PipelineStep H)) (newPipelineStep : PipelineStep H) : Ctream H where
  m_arena := arena
  m_sourceData := sourceData
  m_containerSize := containerSize
  m_pipeline := previousPipeline ++ [newPipelineStep]

/-- `filter(filter)`: the handle passes unchanged when the predicate holds, else null. -/
def filter (s : Ctream H) (p : H → Bool) : Ctream H :=
  internalCtor s.m_arena s.m_containerSize s.m_sourceData s.m_pipeline
    (fun elt => if p elt then some elt else none)

/-- `extract(extractor)`: the handle becomes the address of the extracted part. -/
def extract (s : Ctream H) (extractor : H → H) : Ctream H :=
  internalCtor s.m_arena s.m_containerSize s.m_sourceData s.m_pipeline
    (fun elt => some (extractor elt))

/-- `map(mapper)`: the handle becomes the address of the value built in the arena. -/
def map (s : Ctream H) (mapper : H → H) : Ctream H :=
  internalCtor s.m_arena s.m_containerSize s.m_sourceData s.m_pipeline
    (fun elt => some (mapper elt))

/-- `map<U>()`: the handle becomes the address of the value that `U`'s converting
constructor `construct` builds in the arena from the element. -/
def mapCast (s : Ctream H) (construct : H → H) : Ctream H :=
  internalCtor s.m_arena s.m_containerSize s.m_sourceData s.m_pipeline
    (fun elt => some (construct elt))

/-- The loop of `computeItem` over the steps: the first null breaks out. -/
def runSteps : List (PipelineStep H) → H → Option H
  | [], item => some item
  | step :: rest, item =>
    match step item with
    | none => none
    | some item' => runSteps rest item'

/-- `computeItem(i)`: the source element at `i` threaded through the steps. -/
def computeItem (s : Ctream H) (i : Nat) : Option H :=
  match s.m_sourceData i with
  | none => none
  | some item => runSteps s.m_pipeline item

/-- Body of both accumulation loops: `item = computeItem(j); if (item) accumulate(a, *item)`. -/
def accumulateItem (s : Ctream H) (c : Collector H A R) (a : A) (j : Nat) : A :=
  match s.computeItem j with
  | some item => c.accumulate a item
  | none => a

/-- The loop `for (j = first; j < last; ++j)` of a worker (and, with `first = 0`,
of the sequential branch) run on the accumulator `chunk`. -/
def accumulateRange (s : Ctream H) (c : Collector H A R) (chunk : A) (first last : Nat) : A :=
  (List.range' first (last - first)).foldl (accumulateItem s c) chunk

/-- The candidate thread count of `collect`. -/
def nThreads (containerSize hc : Nat) : Nat :=
  min (1 + containerSize / fine_tuning.MULTITHREAD_MIN_SIZE) (fine_tuning.THREADS_PER_CORE * hc)

/-- The loop `for (i = 0; i < nThreads; ++i)` of the parallel branch, started at
iteration `i` with `fuel` iterations left: the index range `[first, last)` handed
to each worker. -/
def partitionLoop (containerSize nThreads : Nat) : Nat → Nat → Nat → List (Nat × Nat)
  | 0, _, _ => []
  | fuel + 1, i, first =>
    let last := if i = nThreads - 1 then containerSize else first + containerSize / nThreads
    (first, last) :: partitionLoop containerSize nThreads fuel (i + 1) last

/-- The index ranges of the `nThreads` workers, in partition order. -/
def partitions (containerSize nThreads : Nat) : List (Nat × Nat) :=
  partitionLoop containerSize nThreads nThreads 0 0

/-- Sequential branch of `collect`. -/
def collectSeq (s : Ctream H) (c : Collector H A R) : R :=
  c.finish (accumulateRange s c c.supply 0 s.m_containerSize)

/-- The `chunks` vector after all workers are joined. -/
def chunks (s : Ctream H) (c : Collector H A R) (nThreads : Nat) : List A :=
  (partitions s.m_containerSize nThreads).map
    (fun r => accumulateRange s c c.supply r.1 r.2)

/-- Parallel branch of `collect` with `nThreads` workers. -/
def collectPar (s : Ctream H) (c : Collector H A R) (nThreads : Nat) : R :=
  c.finish ((chunks s c nThreads).foldl c.combine c.supply)

/-- `collect(collector)` on a machine whose `hardware_concurrency()` is `hc`. -/
def collect (s : Ctream H) (c : Collector H A R) (hc : Nat) : R :=
  if nThreads s.m_containerSize hc < 2 then collectSeq s c
  else collectPar s c (nThreads s.m_containerSize hc)

/-- `sum()`. -/
def sum (s : Ctream Int) (hc : Nat) : Int := collect s (collectors.Sum Int) hc

/-- `product()`. -/
def product (s : Ctream Int) (hc : Nat) : Int := collect s (collectors.Product Int) hc

/-- `min()`. -/
def min (s : Ctream Int) (hc : Nat) : Int :=
  collect s (collectors.Min Int collectors.defaultComp) hc

/-- `max()`. -/
def max (s : Ctream Int) (hc : Nat) : Int :=
  collect s (collectors.Max Int collectors.defaultComp) hc

/-- `toList()`. -/
def toList (s : Ctream H) (hc : Nat) : List H := collect s (collectors.ToList H) hc

/-- `toVector()`: the estimated chunk size is `m_containerSize / estimatedNThreads`;
the result is `none` when that divisor is zero (the division is undefined). -/
def toVector (s : Ctream H) (hc : Nat) : Option (List H) :=
  let estimatedNThreads := fine_tuning.THREADS_PER_CORE * hc
  if estimatedNThreads = 0 then none
  else
    let estimatedChunkSize := s.m_containerSize / estimatedNThreads
    some (collect s (collectors.ToVector H estimatedChunkSize) hc)

/-- The present (non-filtered) items of the indices `[first, last)`, in index order. -/
def items (s : Ctream H) (first last : Nat) : List H :=
  (List.range' first (last - first)).filterMap s.computeItem

end Ctream

/-! ## Evaluation with the arena made explicit -/

/-- A pipeline step together with what it does to the shared arena. -/
abbrev ArenaStep (H : Type) := H → BasicArena → Option H × BasicArena

namespace Ctream

variable {H A R : Type}

/-- The step built by `filter`: it does not use the arena. -/
def filterStep (p : H → Bool) : ArenaStep H :=
  fun elt arena => (if p elt then some elt else none, arena)

/-- The step built by `extract`: `&extractor(*elt)`, it does not use the arena. -/
def extractStep (extractor : H → H) : ArenaStep H :=
  fun elt arena => (some (extractor elt), arena)

/-- The step built by `map(mapper)`: `m_arena->construct<U>(mapper(*elt))`. -/
def mapStep (mapper : H → H) (sizeofU delFct : Nat) : ArenaStep H :=
  fun elt arena => (some (mapper elt), (arena.construct sizeofU delFct).2)

/-- The step built by `map<U>()`: `m_arena->construct<U>(*elt)`. -/
def mapCastStep (construct : H → H) (sizeofU delFct : Nat) : ArenaStep H :=
  fun elt arena => (some (construct elt), (arena.construct sizeofU delFct).2)

/-- The loop of `computeItem` over the steps, with the arena threaded through. -/
def runStepsIn : List (ArenaStep H) → H → BasicArena → Option H × BasicArena
  | [], item, arena => (some item, arena)
  | step :: rest, item, arena =>
    match step item arena with
    | (none, arena') => (none, arena')
    | (some item', arena') => runStepsIn rest item' arena'

/-- `computeItem(i)` with the arena threaded through. -/
def computeItemIn (sourceData : Nat → Option H) (steps : List (ArenaStep H)) (i : Nat)
    (arena : BasicArena) : Option H × BasicArena :=
  match sourceData i with
  | none => (none, arena)
  | some item => runStepsIn steps item arena

/-- The calls `computeItem(i)` for the indices of `idxs`, one after the other (any
schedule of the calls made by `collect` is such a sequence): the handles obtained
and the arena afterwards. -/
def computeItemsIn (sourceData : Nat → Option H) (steps : List (ArenaStep H)) :
    List Nat → BasicArena → List (Option H) × BasicArena
  | [], arena => ([], arena)
  | i :: idxs, arena =>
    let r := computeItemIn sourceData steps i arena
    let t := computeItemsIn sourceData steps idxs r.2
    (r.1 :: t.1, t.2)

/-- The body of the list constructor: `reserve`, then
`for (const auto& v : values) m_elementsWithIndex->emplace_back(&v)`. -/
def indexTable (values : List H) : List H :=
  values.foldl (fun table v => table ++ [v]) (collectors.reserve [] values.length)

end Ctream

/-! ## Auxiliary notions used by the statements -/

/-- The `computeItem` of the specification: the source handle at `i` bound,
left to right, through the steps. -/
def specComputeItem {H : Type} (source : Nat → Option H) (steps : List (PipelineStep H))
    (i : Nat) : Option H :=
  steps.foldl (fun handle step => handle.bind step) (source i)

/-- The pointees of the test `Base.toList.Small`: a `Person` (name, age, weight in
tenths, height) or the `int` extracted from one. -/
inductive TestValue where
  | person (name : String) (age : Int) (weight : Nat) (height : Int)
  | int (n : Int)
  deriving DecidableEq

/-- The extractor of the test `Base.toList.Small`: `p.age`. -/
def TestValue.age : TestValue → TestValue
  | .person _ age _ _ => .int age
  | v => v

/-- The vector `persons` of the test `Base.toList.Small`. -/
def persons : List TestValue :=
  [.person "John Doe" 51 685 175, .person "Peter Pan" 10 502 155,
   .person "Cinderella" 18 513 162]

/-- Index `j` is visited by the worker whose index range is `r = [first, last)`,
that is by its loop `for (j = first; j < last; ++j)`. -/
def inRange (r : Nat × Nat) (j : Nat) : Prop := r.1 ≤ j ∧ j < r.2

instance (r : Nat × Nat) (j : Nat) : Decidable (inRange r j) := by
  unfold inRange; infer_instance

/-- The vector of the test `Collectors.Sum`:
`for (i = 1; i <= n; ++i) ints.emplace_back(i)`. -/
def oneToN (n : Nat) : List Int := (List.range' 1 n).map (fun i => (i : Int))

/-- The candidate thread count in the words of the specification:
`min(1 + containerSize / MULTITHREAD_MIN_SIZE, THREADS_PER_CORE * hardwareConcurrency)`
with the defaults 800 and 2. -/
def specCandidate (containerSize hardwareConcurrency : Nat) : Nat :=
  Nat.min (1 + containerSize / 800) (2 * hardwareConcurrency)

/-! ## Callbacks that fail -/

/-- What a callback, or a loop that calls callbacks, comes to: it completes with a
value or it throws. -/
inductive Attempt (E A : Type) where
  | done (a : A)
  | throws (e : E)
  deriving DecidableEq

/-- What a call of `collect` comes to for its caller: it returns `r`, or the
exception `e` propagates to the caller, or `std::terminate` ends the program (an
exception that leaves the function run by a `std::thread` is not caught by
anything in `collect`). -/
inductive Outcome (E R : Type) where
  | returned (r : R)
  | raised (e : E)
  | terminated
  deriving DecidableEq

/-- A pipeline step whose user callback may throw. -/
abbrev ThrowingStep (E H : Type) := H → Attempt E (Option H)

namespace Ctream

variable {E H A R : Type}

/-- A step that never throws, as a `ThrowingStep`. -/
def liftStep (step : PipelineStep H) : ThrowingStep E H := fun elt => .done (step elt)

/-- The loop of `computeItem` when steps may throw: the exception leaves the loop. -/
def runStepsThrowing : List (ThrowingStep E H) → H → Attempt E (Option H)
  | [], item => .done (some item)
  | step :: rest, item =>
    match step item with
    | .throws e => .throws e
    | .done none => .done none
    | .done (some item') => runStepsThrowing rest item'

/-- `computeItem(i)` when steps may throw. -/
def computeItemThrowing (sourceData : Nat → Option H) (steps : List (ThrowingStep E H))
    (i : Nat) : Attempt E (Option H) :=
  match sourceData i with
  | none => .done none
  | some item => runStepsThrowing steps item

/-- The accumulation loop over the indices `js` when the steps and `accumulate` may
throw: the first exception leaves the loop. -/
def accumulateThrowing (sourceData : Nat → Option H) (steps : List (ThrowingStep E H))
    (accumulate : A → H → Attempt E A) : List Nat → A → Attempt E A
  | [], chunk => .done chunk
  | j :: js, chunk =>
    match computeItemThrowing sourceData steps j with
    | .throws e => .throws e
    | .done none => accumulateThrowing sourceData steps accumulate js chunk
    | .done (some item) =>
      match accumulate chunk item with
      | .throws e => .throws e
      | .done chunk' => accumulateThrowing sourceData steps accumulate js chunk'

/-- Sequential branch of `collect` when callbacks may throw: the loop runs in the
caller's thread, an exception propagates to the caller. -/
def collectSeqThrowing (sourceData : Nat → Option H) (containerSize : Nat)
    (steps : List (ThrowingStep E H)) (accumulate : A → H → Attempt E A)
    (c : Collector H A R) : Outcome E R :=
  match accumulateThrowing sourceData steps accumulate
      (List.range' 0 (containerSize - 0)) c.supply with
  | .throws e => .raised e
  | .done a => .returned (c.finish a)

/-- What each worker of the parallel branch comes to, in partition order. -/
def chunksThrowing (sourceData : Nat → Option H) (containerSize : Nat)
    (steps : List (ThrowingStep E H)) (accumulate : A → H → Attempt E A)
    (c : Collector H A R) (nThreads : Nat) : List (Attempt E A) :=
  (partitions containerSize nThreads).map
    (fun r => accumulateThrowing sourceData steps accumulate
      (List.range' r.1 (r.2 - r.1)) c.supply)

/-- The chunks once every worker is joined, when every worker's function completed;
`none` when the function of some worker threw (`std::terminate`). -/
def joinWorkers : List (Attempt E A) → Option (List A)
  | [] => some []
  | .throws _ :: _ => none
  | .done a :: rest => (joinWorkers rest).map (fun cs => a :: cs)

/-- Parallel branch of `collect` when callbacks may throw. -/
def collectParThrowing (sourceData : Nat → Option H) (containerSize : Nat)
    (steps : List (ThrowingStep E H)) (accumulate : A → H → Attempt E A)
    (c : Collector H A R) (nThreads : Nat) : Outcome E R :=
  match joinWorkers (chunksThrowing sourceData containerSize steps accumulate c nThreads) with
  | none => .terminated
  | some cs => .returned (c.finish (cs.foldl c.combine c.supply))

/-- The exception of the failing worker with the lowest partition index. -/
def firstFailure : List (Attempt E A) → Option E
  | [] => none
  | .throws e :: _ => some e
  | .done _ :: rest => firstFailure rest

/-- The parallel branch in the words of the specification: every worker is joined,
then the error of the failing partition with the lowest index is reported to the
caller; without a failure the combined result is returned. -/
def specCollectParThrowing (sourceData : Nat → Option H) (containerSize : Nat)
    (steps : List (ThrowingStep E H)) (accumulate : A → H → Attempt E A)
    (c : Collector H A R) (nThreads : Nat) : Outcome E R :=
  match firstFailure (chunksThrowing sourceData containerSize steps accumulate c nThreads) with
  | some e => .raised e
  | none =>
    match joinWorkers (chunksThrowing sourceData containerSize steps accumulate c nThreads) with
    | none => .terminated
    | some cs => .returned (c.finish (cs.foldl c.combine c.supply))

end Ctream

/-! ## Comparisons given to `Min` and `Max` -/

/-- A strict weak ordering: irreflexive, transitive, and with a transitive
incomparability. -/
structure StrictWeakOrder {T : Type} (comp : T → T → Bool) : Prop where
  irrefl : ∀ a, comp a a = false
  trans : ∀ a b c, comp a b = true → comp b c = true → comp a c = true
  incomp_trans : ∀ a b c, comp a b = false → comp b a = false → comp b c = false →
    comp c b = false → comp a c = false ∧ comp c a = false

/-- Invariant of the accumulators of `Min<T>` and `Max<T>`: an unset `Optional` is
the default-constructed one. -/
def Optional.Ok {T : Type} [Inhabited T] (a : Optional T) : Prop :=
  a.set = false → a.val = default

/-- The value `r` is the first element of `l`, in index order, among the
`comp`-minimal ones: it stands at some index `i`, no element of `l` is below it,
and every element before index `i` has an element of `l` below it. -/
def IsFirstMinimal {T : Type} (comp : T → T → Bool) (l : List T) (r : T) : Prop :=
  ∃ i : Nat, l[i]? = some r ∧ (∀ x ∈ l, comp x r = false)
    ∧ ∀ (j : Nat) (y : T), j < i → l[j]? = some y → ∃ x ∈ l, comp x y = true

/-- The value `r` is the first element of `l`, in index order, among the
`comp`-maximal ones. -/
def IsFirstMaximal {T : Type} (comp : T → T → Bool) (l : List T) (r : T) : Prop :=
  ∃ i : Nat, l[i]? = some r ∧ (∀ x ∈ l, comp r x = false)
    ∧ ∀ (j : Nat) (y : T), j < i → l[j]? = some y → ∃ x ∈ l, comp y x = true

/-! ## The page choice as the claims word it -/

/-- The page choice with "enough remaining capacity" read as "at least the
request": the position of the first page, in list order, with
`size - cursor ≥ request`. -/
def specFirstFit (request : Nat) : List Page → Option Nat
  | [] => none
  | p :: ps =>
    if p.size - p.cursor ≥ request then some 0
    else (specFirstFit request ps).map (fun i => i + 1)

/-! ## Concatenation -/

/-- `Concat<T>`: the accumulator is a `std::stringstream`, modelled by the text it
holds; `a << b` appends the textual form `format b` of the element, `combine` is
`a << b.str()`, `finish` is `a.str()`. -/
def collectors.Concat (T : Type) (format : T → String) : Collector T String String where
  supply := ""
  accumulate a b := a ++ format b
  combine a b := a ++ b
  finish a := a

/-- `concat()` on a stream of strings, whose textual form is the string itself. -/
def Ctream.concat (s : Ctream String) (hc : Nat) : String :=
  s.collect (collectors.Concat String id) hc

/-! ## Evaluation lemmas -/

namespace Ctream

variable {H A R : Type}

theorem foldl_accumulateItem (s : Ctream H) (c : Collector H A R) (l : List Nat) (a : A) :
    l.foldl (accumulateItem s c) a = (l.filterMap s.computeItem).foldl c.accumulate a := by
  induction l generalizing a with
  | nil => rfl
  | cons j l ih =>
    simp only [List.foldl_cons, List.filterMap_cons, accumulateItem, ih]
    cases s.computeItem j <;> rfl

theorem accumulateRange_eq_foldl (s : Ctream H) (c : Collector H A R) (a : A) (first last : Nat) :
    accumulateRange s c a first last = (items s first last).foldl c.accumulate a :=
  foldl_accumulateItem s c _ a

theorem items_append (s : Ctream H) {first mid last : Nat} (h₁ : first ≤ mid) (h₂ : mid ≤ last) :
    items s first mid ++ items s mid last = items s first last := by
  unfold items
  rw [← List.filterMap_append]
  congr 1
  have e : mid = first + (mid - first) := by omega
  have e' : last - first = (last - mid) + (mid - first) := by omega
  rw [e', ← List.range'_append_1, ← e]

theorem items_self (s : Ctream H) (first : Nat) : items s first first = [] := by
  simp [items]

theorem collectSeq_eq (s : Ctream H) (c : Collector H A R) :
    collectSeq s c = c.finish ((items s 0 s.m_containerSize).foldl c.accumulate c.supply) := by
  rw [collectSeq, accumulateRange_eq_foldl]

/-- Concatenating, in partition order, the present items seen by the workers of
the iterations `i, ..., nThreads - 1` gives the present items of `[first, n)`. -/
theorem partitionLoop_items (s : Ctream H) (n k : Nat) :
    ∀ (fuel i first : Nat), 0 < fuel → i + fuel = k → first + (fuel - 1) * (n / k) ≤ n →
      ((partitionLoop n k fuel i first).map (fun r => items s r.1 r.2)).flatten
        = items s first n := by
  intro fuel
  induction fuel with
  | zero => intro i first h; omega
  | succ fuel ih =>
    intro i first _ hk hle
    rcases Nat.eq_zero_or_pos fuel with h0 | hpos
    · subst h0
      have hi : i = k - 1 := by omega
      simp [partitionLoop, hi]
    · have hi : i ≠ k - 1 := by omega
      have hle' : first + n / k + (fuel - 1) * (n / k) ≤ n := by
        have e : fuel + 1 - 1 = (fuel - 1) + 1 := by omega
        rw [e, Nat.add_mul, Nat.one_mul] at hle
        omega
      have hmid : first + n / k ≤ n := le_trans (Nat.le_add_right _ _) hle'
      simp only [partitionLoop, hi, if_false, List.map_cons, List.flatten_cons]
      rw [ih (i + 1) (first + n / k) hpos (by omega) hle']
      exact items_append s (Nat.le_add_right _ _) hmid

theorem partitions_items (s : Ctream H) (n k : Nat) (hk : 0 < k) :
    ((partitions n k).map (fun r => items s r.1 r.2)).flatten = items s 0 n := by
  apply partitionLoop_items s n k k 0 0 hk (by omega)
  have : (k - 1) * (n / k) ≤ k * (n / k) := Nat.mul_le_mul_right _ (Nat.sub_le _ _)
  have := Nat.mul_div_le n k
  omega

end Ctream

/-! ## Collector laws and the fork-join equivalence -/

namespace Collector.Lawful

variable {T A R : Type} {c : Collector T A R} {P : A → Prop}

theorem foldl_accumulate (h : c.Lawful P) (xs : List T) (a : A) (ha : P a) :
    P (xs.foldl c.accumulate a) := by
  induction xs generalizing a with
  | nil => exact ha
  | cons x xs ih => exact ih _ (h.accumulate a x ha)

theorem combine_foldl (h : c.Lawful P) (xs : List T) (a : A) (ha : P a) :
    c.combine a (xs.foldl c.accumulate c.supply) = xs.foldl c.accumulate a := by
  induction xs using List.reverseRecOn with
  | nil => exact h.combine_supply a ha
  | append_singleton xs x ih =>
    simp only [List.foldl_append, List.foldl_cons, List.foldl_nil]
    rw [h.combine_accumulate a _ x ha (h.foldl_accumulate xs _ h.supply), ih]

theorem foldl_combine (h : c.Lawful P) (L : List (List T)) (a : A) (ha : P a) :
    (L.map (fun xs => xs.foldl c.accumulate c.supply)).foldl c.combine a
      = L.flatten.foldl c.accumulate a := by
  induction L generalizing a with
  | nil => rfl
  | cons xs L ih =>
    simp only [List.map_cons, List.foldl_cons, List.flatten_cons, List.foldl_append]
    rw [h.combine_foldl xs a ha]
    exact ih _ (h.foldl_accumulate xs a ha)

end Collector.Lawful

namespace Ctream

variable {H A R : Type}

theorem chunks_eq (s : Ctream H) (c : Collector H A R) (k : Nat) :
    chunks s c k = (((partitions s.m_containerSize k).map (fun r => items s r.1 r.2)).map
      (fun xs => xs.foldl c.accumulate c.supply)) := by
  simp [chunks, accumulateRange_eq_foldl, Function.comp_def]

/-- For a lawful collector the parallel branch, with any number `k ≥ 1` of
workers, computes what the sequential branch computes. -/
theorem collectPar_eq_collectSeq_of_lawful (s : Ctream H) (c : Collector H A R) {P : A → Prop}
    (h : c.Lawful P) (k : Nat) (hk : 0 < k) :
    collectPar s c k = collectSeq s c := by
  rw [collectSeq_eq, collectPar, chunks_eq, h.foldl_combine _ _ h.supply,
    partitions_items s _ k hk]

theorem collect_eq_collectSeq_of_lawful (s : Ctream H) (c : Collector H A R) {P : A → Prop}
    (h : c.Lawful P) (hc : Nat) :
    collect s c hc = collectSeq s c := by
  unfold collect
  split
  · rfl
  · exact collectPar_eq_collectSeq_of_lawful s c h _ (by omega)

end Ctream

/-! ## The built-in collectors are lawful -/

namespace collectors

theorem Sum_lawful (T : Type) [AddMonoid T] : (Sum T).Lawful (fun _ => True) where
  supply := trivial
  accumulate _ _ _ := trivial
  combine_supply a _ := add_zero a
  combine_accumulate a b x _ _ := (add_assoc a b x).symm

theorem Product_lawful (T : Type) [Monoid T] : (Product T).Lawful (fun _ => True) where
  supply := trivial
  accumulate _ _ _ := trivial
  combine_supply a _ := mul_one a
  combine_accumulate a b x _ _ := (mul_assoc a b x).symm

theorem SumMod_lawful (w : Nat) : (SumMod w).Lawful (fun a => a < 2 ^ w) where
  supply := Nat.two_pow_pos w
  accumulate _ _ _ := Nat.mod_lt _ (Nat.two_pow_pos w)
  combine_supply a ha := by simp [SumMod, Nat.mod_eq_of_lt ha]
  combine_accumulate a b x _ _ := by
    simp only [SumMod]
    rw [Nat.add_mod a, Nat.mod_mod, ← Nat.add_mod, Nat.add_mod _ x, Nat.mod_mod,
      ← Nat.add_mod, Nat.add_assoc]

theorem ProductMod_lawful (w : Nat) : (ProductMod w).Lawful (fun a => a < 2 ^ w) where
  supply := Nat.mod_lt _ (Nat.two_pow_pos w)
  accumulate _ _ _ := Nat.mod_lt _ (Nat.two_pow_pos w)
  combine_supply a ha := by
    simp only [ProductMod]
    rw [Nat.mul_mod, Nat.mod_mod, ← Nat.mul_mod, Nat.mul_one, Nat.mod_eq_of_lt ha]
  combine_accumulate a b x _ _ := by
    simp only [ProductMod]
    rw [Nat.mul_mod a, Nat.mod_mod, ← Nat.mul_mod, Nat.mul_mod _ x, Nat.mod_mod,
      ← Nat.mul_mod, Nat.mul_assoc]

theorem Min_lawful : (Min Int defaultComp).Lawful OptionalOk where
  supply := fun _ => rfl
  accumulate a x ha := by
    rcases a with ⟨av, _ | _⟩ <;> simp only [Min, OptionalOk] at ha ⊢ <;> split_ifs <;> simp_all
  combine_supply a ha := by
    rcases a with ⟨av, _ | _⟩ <;> simp_all [Min, OptionalOk]
  combine_accumulate a b x _ _ := by
    rcases a with ⟨av, _ | _⟩ <;> rcases b with ⟨bv, _ | _⟩ <;>
      simp only [Min, defaultComp] <;> split_ifs <;> simp_all <;> omega

theorem Max_lawful : (Max Int defaultComp).Lawful OptionalOk where
  supply := fun _ => rfl
  accumulate a x ha := by
    rcases a with ⟨av, _ | _⟩ <;> simp only [Max, OptionalOk] at ha ⊢ <;> split_ifs <;> simp_all
  combine_supply a ha := by
    rcases a with ⟨av, _ | _⟩ <;> simp_all [Max, OptionalOk]
  combine_accumulate a b x _ _ := by
    rcases a with ⟨av, _ | _⟩ <;> rcases b with ⟨bv, _ | _⟩ <;>
      simp only [Max, defaultComp] <;> split_ifs <;> simp_all <;> omega

theorem ToList_lawful (T : Type) : (ToList T).Lawful (fun _ => True) where
  supply := trivial
  accumulate _ _ _ := trivial
  combine_supply a _ := List.append_nil a
  combine_accumulate a b x _ _ := (List.append_assoc a b [x]).symm

theorem ToVector_lawful (T : Type) (m_chunkSize : Nat) :
    (ToVector T m_chunkSize).Lawful (fun _ => True) where
  supply := trivial
  accumulate _ _ _ := trivial
  combine_supply a _ := by simp [ToVector, reserve]
  combine_accumulate a b x _ _ := (List.append_assoc a b [x]).symm

end collectors

/-! ## Streams over a vector -/

namespace Ctream

variable {H A R : Type}

theorem filterMap_getElem?_bind (f : H → Option H) (xs : List H) :
    ∀ pre : List H, (List.range' pre.length xs.length).filterMap
        (fun i => ((pre ++ xs)[i]?).bind f) = xs.filterMap f := by
  induction xs with
  | nil => intro pre; simp
  | cons x xs ih =>
    intro pre
    have h := ih (pre ++ [x])
    simp only [List.length_append, List.length_singleton, List.append_assoc,
      List.singleton_append] at h
    have hx : (pre ++ x :: xs)[pre.length]? = some x := by
      rw [List.getElem?_append_right (Nat.le_refl _)]; simp
    rw [List.length_cons, List.range'_succ, List.filterMap_cons, hx, h, Option.some_bind,
      List.filterMap_cons]

theorem computeItem_eq_bind (s : Ctream H) (i : Nat) :
    s.computeItem i = (s.m_sourceData i).bind (runSteps s.m_pipeline) := by
  unfold computeItem
  cases s.m_sourceData i <;> rfl

/-- The present items of a stream over the vector `xs`: the elements of `xs` that
survive the pipeline, in source order. -/
theorem items_of_vector (s : Ctream H) (xs : List H)
    (hsrc : s.m_sourceData = fun i => xs[i]?) (hsize : s.m_containerSize = xs.length) :
    items s 0 s.m_containerSize = xs.filterMap (runSteps s.m_pipeline) := by
  have h := filterMap_getElem?_bind (runSteps s.m_pipeline) xs []
  simp only [List.length_nil, List.nil_append] at h
  rw [← h, hsize]
  simp only [items, Nat.sub_zero]
  congr 1
  funext i
  rw [computeItem_eq_bind, hsrc]

theorem items_toCtream (xs : List H) :
    items (toCtream xs) 0 (toCtream xs).m_containerSize = xs := by
  rw [items_of_vector (toCtream xs) xs rfl rfl]
  simp [toCtream, runSteps]

theorem items_filter (xs : List H) (p : H → Bool) :
    items ((toCtream xs).filter p) 0 ((toCtream xs).filter p).m_containerSize = xs.filter p := by
  rw [items_of_vector ((toCtream xs).filter p) xs rfl rfl]
  rw [← List.filterMap_eq_filter]
  congr 1
  funext x
  simp only [filter, internalCtor, toCtream, List.nil_append, runSteps, Option.guard]
  by_cases hp : p x = true <;> simp [hp]

theorem foldl_emplace_back (l a : List H) :
    l.foldl (fun a b => a ++ [b]) a = a ++ l := by
  induction l generalizing a with
  | nil => simp
  | cons x l ih => simp [ih]

theorem collectSeq_ToVector (s : Ctream H) (m_chunkSize : Nat) :
    collectSeq s (collectors.ToVector H m_chunkSize) = items s 0 s.m_containerSize := by
  rw [collectSeq_eq]
  simp [collectors.ToVector, collectors.reserve, foldl_emplace_back]

theorem collectSeq_ToList (s : Ctream H) :
    collectSeq s (collectors.ToList H) = items s 0 s.m_containerSize := by
  rw [collectSeq_eq]
  simp [collectors.ToList, foldl_emplace_back]

theorem collectPar_ToVector (s : Ctream H) (m_chunkSize k : Nat) (hk : 0 < k) :
    collectPar s (collectors.ToVector H m_chunkSize) k = items s 0 s.m_containerSize := by
  rw [collectPar_eq_collectSeq_of_lawful s _ (collectors.ToVector_lawful H m_chunkSize) k hk,
    collectSeq_ToVector]

theorem collectPar_ToList (s : Ctream H) (k : Nat) (hk : 0 < k) :
    collectPar s (collectors.ToList H) k = items s 0 s.m_containerSize := by
  rw [collectPar_eq_collectSeq_of_lawful s _ (collectors.ToList_lawful H) k hk,
    collectSeq_ToList]

theorem collect_ToVector (s : Ctream H) (m_chunkSize hc : Nat) :
    collect s (collectors.ToVector H m_chunkSize) hc = items s 0 s.m_containerSize := by
  rw [collect_eq_collectSeq_of_lawful s _ (collectors.ToVector_lawful H m_chunkSize) hc,
    collectSeq_ToVector]

theorem collect_ToList (s : Ctream H) (hc : Nat) :
    collect s (collectors.ToList H) hc = items s 0 s.m_containerSize := by
  rw [collect_eq_collectSeq_of_lawful s _ (collectors.ToList_lawful H) hc, collectSeq_ToList]

theorem toVector_eq (s : Ctream H) (hc : Nat) (hhc : 0 < hc) :
    toVector s hc = some (items s 0 s.m_containerSize) := by
  have h2 : fine_tuning.THREADS_PER_CORE * hc ≠ 0 := by
    simp only [fine_tuning.THREADS_PER_CORE]; omega
  simp only [toVector, h2, if_false, collect_ToVector]

theorem chunks_ToVector_flatten (s : Ctream H) (m_chunkSize k : Nat) (hk : 0 < k) :
    (chunks s (collectors.ToVector H m_chunkSize) k).flatten = items s 0 s.m_containerSize := by
  rw [chunks_eq, ← partitions_items s s.m_containerSize k hk]
  congr 1
  simp [collectors.ToVector, collectors.reserve, foldl_emplace_back]

theorem chunks_ToList_flatten (s : Ctream H) (k : Nat) (hk : 0 < k) :
    (chunks s (collectors.ToList H) k).flatten = items s 0 s.m_containerSize := by
  rw [chunks_eq, ← partitions_items s s.m_containerSize k hk]
  congr 1
  simp [collectors.ToList, foldl_emplace_back]

end Ctream

/-! ## The index ranges of the workers -/

namespace Ctream

variable {H A R : Type}

theorem partitionLoop_length (n k : Nat) :
    ∀ fuel i first : Nat, (partitionLoop n k fuel i first).length = fuel := by
  intro fuel
  induction fuel with
  | zero => intro i first; rfl
  | succ fuel ih => intro i first; simp [partitionLoop, ih]

theorem partitionLoop_getElem? (n k : Nat) :
    ∀ fuel i first j : Nat, j < fuel → i + fuel ≤ k →
      (partitionLoop n k fuel i first)[j]?
        = some (first + j * (n / k),
            if i + j = k - 1 then n else first + (j + 1) * (n / k)) := by
  intro fuel
  induction fuel with
  | zero => intro i first j hj; omega
  | succ fuel ih =>
    intro i first j hj hk
    cases j with
    | zero => simp [partitionLoop]
    | succ j =>
      have hi : i ≠ k - 1 := by omega
      simp only [partitionLoop, hi, if_false, List.getElem?_cons_succ]
      rw [ih (i + 1) (first + n / k) j (by omega) (by omega)]
      have e₁ : first + n / k + j * (n / k) = first + (j + 1) * (n / k) := by
        rw [Nat.add_mul, Nat.one_mul]; omega
      have e₂ : first + n / k + (j + 1) * (n / k) = first + (j + 1 + 1) * (n / k) := by
        rw [Nat.add_mul (j + 1) 1, Nat.one_mul]; omega
      have e₃ : (i + 1 + j = k - 1) ↔ (i + (j + 1) = k - 1) := by omega
      simp only [e₁, e₂, e₃]

theorem partitions_getElem? (n k i : Nat) (hi : i < k) :
    (partitions n k)[i]?
      = some (i * (n / k), if i = k - 1 then n else (i + 1) * (n / k)) := by
  rw [partitions, partitionLoop_getElem? n k k 0 0 i hi (by omega)]
  simp

theorem partitions_getElem?_lt (n k i : Nat) (r : Nat × Nat)
    (h : (partitions n k)[i]? = some r) : i < k := by
  have hlt := (List.getElem?_eq_some_iff.1 h).1
  rwa [partitions, partitionLoop_length] at hlt

theorem mul_div_le_of_lt_pred (n k i : Nat) (hi : i + 1 < k) :
    (i + 1) * (n / k) ≤ (k - 1) * (n / k) :=
  Nat.mul_le_mul_right _ (by omega)

theorem pred_mul_div_add (n k : Nat) (hk : 0 < k) :
    (k - 1) * (n / k) + n / k + n % k = n := by
  have h := Nat.div_add_mod n k
  have e : k * (n / k) = (k - 1) * (n / k) + n / k := by
    have hk' : k = (k - 1) + 1 := by omega
    calc k * (n / k) = ((k - 1) + 1) * (n / k) := by rw [← hk']
      _ = (k - 1) * (n / k) + n / k := by rw [Nat.add_mul, Nat.one_mul]
  omega

theorem partitions_getElem?_eq (n k i : Nat) (r : Nat × Nat)
    (h : (partitions n k)[i]? = some r) :
    i < k ∧ r = (i * (n / k), if i = k - 1 then n else (i + 1) * (n / k)) := by
  have hi := partitions_getElem?_lt n k i r h
  rw [partitions_getElem? n k i hi] at h
  exact ⟨hi, (Option.some.inj h).symm⟩

/-- Every range but the last has `n / k` indices, the last has `n / k + n % k`. -/
theorem partitions_size (n k i : Nat) (r : Nat × Nat) (h : (partitions n k)[i]? = some r) :
    r.1 ≤ r.2 ∧ r.2 - r.1 = if i = k - 1 then n / k + n % k else n / k := by
  obtain ⟨hi, rfl⟩ := partitions_getElem?_eq n k i r h
  have hsum := pred_mul_div_add n k (by omega)
  by_cases hlast : i = k - 1
  · simp only [hlast, if_true]
    generalize n / k = q at *
    generalize n % k = m at *
    omega
  · simp only [hlast, if_false]
    have e : (i + 1) * (n / k) = i * (n / k) + n / k := by rw [Nat.add_mul, Nat.one_mul]
    generalize n / k = q at *
    omega

theorem nThreads_eq (n hc : Nat) : nThreads n hc = Nat.min (1 + n / 800) (2 * hc) := rfl

theorem chunks_length (s : Ctream H) (c : Collector H A R) (k : Nat) :
    (chunks s c k).length = k := by
  simp [chunks, partitions, partitionLoop_length]

end Ctream

/-! ## Minimum, maximum, sum and the empty stream -/

namespace Ctream

variable {H A R : Type}

theorem foldl_Min_accumulate (l : List Int) :
    ∀ v : Int, ∃ m : Int,
      l.foldl (collectors.Min Int collectors.defaultComp).accumulate ⟨v, true⟩ = ⟨m, true⟩
      ∧ (m = v ∨ m ∈ l) ∧ m ≤ v ∧ ∀ x ∈ l, m ≤ x := by
  induction l with
  | nil => intro v; exact ⟨v, rfl, Or.inl rfl, le_refl v, by simp⟩
  | cons x l ih =>
    intro v
    by_cases hlt : x < v
    · obtain ⟨m, hm, hmem, hle, hall⟩ := ih x
      refine ⟨m, ?_, ?_, by omega, ?_⟩
      · simp only [List.foldl_cons, collectors.Min, collectors.defaultComp] at hm ⊢
        simpa [hlt] using hm
      · rcases hmem with h | h
        · exact Or.inr (by simp [h])
        · exact Or.inr (List.mem_cons_of_mem _ h)
      · intro y hy
        rcases List.mem_cons.1 hy with h | h
        · omega
        · exact hall y h
    · obtain ⟨m, hm, hmem, hle, hall⟩ := ih v
      refine ⟨m, ?_, ?_, hle, ?_⟩
      · simp only [List.foldl_cons, collectors.Min, collectors.defaultComp] at hm ⊢
        simpa [hlt] using hm
      · rcases hmem with h | h
        · exact Or.inl h
        · exact Or.inr (List.mem_cons_of_mem _ h)
      · intro y hy
        rcases List.mem_cons.1 hy with h | h
        · omega
        · exact hall y h

theorem foldl_Max_accumulate (l : List Int) :
    ∀ v : Int, ∃ m : Int,
      l.foldl (collectors.Max Int collectors.defaultComp).accumulate ⟨v, true⟩ = ⟨m, true⟩
      ∧ (m = v ∨ m ∈ l) ∧ v ≤ m ∧ ∀ x ∈ l, x ≤ m := by
  induction l with
  | nil => intro v; exact ⟨v, rfl, Or.inl rfl, le_refl v, by simp⟩
  | cons x l ih =>
    intro v
    by_cases hlt : v < x
    · obtain ⟨m, hm, hmem, hle, hall⟩ := ih x
      refine ⟨m, ?_, ?_, by omega, ?_⟩
      · simp only [List.foldl_cons, collectors.Max, collectors.defaultComp] at hm ⊢
        simpa [hlt] using hm
      · rcases hmem with h | h
        · exact Or.inr (by simp [h])
        · exact Or.inr (List.mem_cons_of_mem _ h)
      · intro y hy
        rcases List.mem_cons.1 hy with h | h
        · omega
        · exact hall y h
    · obtain ⟨m, hm, hmem, hle, hall⟩ := ih v
      refine ⟨m, ?_, ?_, hle, ?_⟩
      · simp only [List.foldl_cons, collectors.Max, collectors.defaultComp] at hm ⊢
        simpa [hlt] using hm
      · rcases hmem with h | h
        · exact Or.inl h
        · exact Or.inr (List.mem_cons_of_mem _ h)
      · intro y hy
        rcases List.mem_cons.1 hy with h | h
        · omega
        · exact hall y h

/-- On a stream with at least one present item the sequential `Min` returns a
present item that is a lower bound of all present items. -/
theorem collectSeq_Min_mem_le (s : Ctream Int) (hne : items s 0 s.m_containerSize ≠ []) :
    collectSeq s (collectors.Min Int collectors.defaultComp) ∈ items s 0 s.m_containerSize
    ∧ ∀ x ∈ items s 0 s.m_containerSize,
        collectSeq s (collectors.Min Int collectors.defaultComp) ≤ x := by
  rw [collectSeq_eq]
  generalize items s 0 s.m_containerSize = l at *
  cases l with
  | nil => exact absurd rfl hne
  | cons v l =>
    obtain ⟨m, hm, hmem, hle, hall⟩ := foldl_Min_accumulate l v
    have hfold : (v :: l).foldl (collectors.Min Int collectors.defaultComp).accumulate
        (collectors.Min Int collectors.defaultComp).supply = ⟨m, true⟩ := by
      rw [← hm]; rfl
    rw [hfold]
    have hfin : (collectors.Min Int collectors.defaultComp).finish ⟨m, true⟩ = m := rfl
    rw [hfin]
    refine ⟨?_, ?_⟩
    · rcases hmem with h | h
      · simp [h]
      · exact List.mem_cons_of_mem _ h
    · intro y hy
      rcases List.mem_cons.1 hy with h | h
      · omega
      · exact hall y h

/-- On a stream with at least one present item the sequential `Max` returns a
present item that is an upper bound of all present items. -/
theorem collectSeq_Max_mem_le (s : Ctream Int) (hne : items s 0 s.m_containerSize ≠ []) :
    collectSeq s (collectors.Max Int collectors.defaultComp) ∈ items s 0 s.m_containerSize
    ∧ ∀ x ∈ items s 0 s.m_containerSize,
        x ≤ collectSeq s (collectors.Max Int collectors.defaultComp) := by
  rw [collectSeq_eq]
  generalize items s 0 s.m_containerSize = l at *
  cases l with
  | nil => exact absurd rfl hne
  | cons v l =>
    obtain ⟨m, hm, hmem, hle, hall⟩ := foldl_Max_accumulate l v
    have hfold : (v :: l).foldl (collectors.Max Int collectors.defaultComp).accumulate
        (collectors.Max Int collectors.defaultComp).supply = ⟨m, true⟩ := by
      rw [← hm]; rfl
    rw [hfold]
    have hfin : (collectors.Max Int collectors.defaultComp).finish ⟨m, true⟩ = m := rfl
    rw [hfin]
    refine ⟨?_, ?_⟩
    · rcases hmem with h | h
      · simp [h]
      · exact List.mem_cons_of_mem _ h
    · intro y hy
      rcases List.mem_cons.1 hy with h | h
      · omega
      · exact hall y h

theorem items_eq_nil_of_absent (s : Ctream H)
    (h : ∀ i, i < s.m_containerSize → s.computeItem i = none) :
    items s 0 s.m_containerSize = [] := by
  unfold items
  rw [List.filterMap_eq_nil_iff]
  intro i hi
  rw [List.mem_range'_1] at hi
  exact h i (by omega)

theorem collectSeq_of_no_item (s : Ctream H) (c : Collector H A R)
    (h : items s 0 s.m_containerSize = []) : collectSeq s c = c.finish c.supply := by
  rw [collectSeq_eq, h]; rfl

theorem foldl_add (l : List Int) (a : Int) :
    l.foldl (collectors.Sum Int).accumulate a = a + l.sum := by
  induction l generalizing a with
  | nil => simp
  | cons x l ih =>
    rw [List.foldl_cons, List.sum_cons, ih]
    simp only [collectors.Sum]
    ring

theorem collectSeq_Sum (s : Ctream Int) :
    collectSeq s (collectors.Sum Int) = (items s 0 s.m_containerSize).sum := by
  rw [collectSeq_eq, foldl_add]
  simp [collectors.Sum]

theorem oneToN_succ (n : Nat) : oneToN (n + 1) = oneToN n ++ [((n + 1 : Nat) : Int)] := by
  simp [oneToN, List.range'_1_concat, Nat.add_comm]

theorem two_mul_sum_oneToN (n : Nat) : 2 * (oneToN n).sum = (n : Int) * ((n : Int) + 1) := by
  induction n with
  | zero => simp [oneToN]
  | succ n ih =>
    rw [oneToN_succ, List.sum_append, List.sum_singleton, mul_add, ih]
    push_cast
    ring

theorem sum_oneToN (n : Nat) : (oneToN n).sum = (n : Int) * ((n : Int) + 1) / 2 := by
  rw [← two_mul_sum_oneToN n]
  simp

end Ctream

/-! ## Streams with the same items, and appended steps -/

namespace Ctream

variable {H A R : Type}

/-- `collect` only reads the container size and `computeItem`. -/
theorem collect_congr (s t : Ctream H) (c : Collector H A R)
    (hsize : s.m_containerSize = t.m_containerSize)
    (hitem : ∀ i, s.computeItem i = t.computeItem i) :
    collectSeq s c = collectSeq t c
    ∧ (∀ k, collectPar s c k = collectPar t c k)
    ∧ (∀ hc, collect s c hc = collect t c hc) := by
  have hacc : accumulateItem s c = accumulateItem t c := by
    funext a j
    simp only [accumulateItem, hitem]
  have hrange : ∀ a first last,
      accumulateRange s c a first last = accumulateRange t c a first last := by
    intro a first last
    simp only [accumulateRange, hacc]
  have hseq : collectSeq s c = collectSeq t c := by
    simp only [collectSeq, hrange, hsize]
  have hpar : ∀ k, collectPar s c k = collectPar t c k := by
    intro k
    simp only [collectPar, chunks, hrange, hsize]
  refine ⟨hseq, hpar, ?_⟩
  intro hc
  simp only [collect, hsize, hseq, hpar]

theorem toVector_congr (s t : Ctream H) (hsize : s.m_containerSize = t.m_containerSize)
    (hitem : ∀ i, s.computeItem i = t.computeItem i) (hc : Nat) :
    s.toVector hc = t.toVector hc := by
  simp only [toVector, hsize, (collect_congr s t _ hsize hitem).2.2 hc]

theorem runSteps_append (p q : List (PipelineStep H)) (x : H) :
    runSteps (p ++ q) x = (runSteps p x).bind (runSteps q) := by
  induction p generalizing x with
  | nil => rfl
  | cons step p ih =>
    simp only [List.cons_append, runSteps]
    cases step x with
    | none => rfl
    | some y => exact ih y

theorem runSteps_singleton (step : PipelineStep H) (x : H) : runSteps [step] x = step x := by
  simp only [runSteps]
  cases step x <;> rfl

/-- The stream made by the internal constructor computes the item of the previous
stream and then applies the new step. -/
theorem computeItem_internalCtor (s : Ctream H) (step : PipelineStep H) (i : Nat) :
    (internalCtor s.m_arena s.m_containerSize s.m_sourceData s.m_pipeline step).computeItem i
      = (s.computeItem i).bind step := by
  rw [computeItem_eq_bind, computeItem_eq_bind]
  simp only [internalCtor, runSteps_append]
  cases s.m_sourceData i with
  | none => rfl
  | some x =>
    simp only [Option.some_bind]
    cases runSteps s.m_pipeline x with
    | none => rfl
    | some y => simp only [Option.some_bind, runSteps_singleton]

theorem computeItem_toCtream (xs : List H) (i : Nat) : (toCtream xs).computeItem i = xs[i]? := by
  rw [computeItem_eq_bind]
  simp only [toCtream]
  cases xs[i]? <;> rfl

theorem computeItem_mapCast_id (s : Ctream H) (i : Nat) :
    (s.mapCast id).computeItem i = s.computeItem i := by
  rw [mapCast, computeItem_internalCtor]
  cases s.computeItem i <;> rfl

theorem foldl_mul (l : List Int) (a : Int) :
    l.foldl (collectors.Product Int).accumulate a = a * l.prod := by
  induction l generalizing a with
  | nil => simp
  | cons x l ih =>
    rw [List.foldl_cons, List.prod_cons, ih]
    simp only [collectors.Product]
    ring

theorem collectSeq_Product (s : Ctream Int) :
    collectSeq s (collectors.Product Int) = (items s 0 s.m_containerSize).prod := by
  rw [collectSeq_eq, foldl_mul]
  simp [collectors.Product]

theorem six_mul_sum_squares (n : Nat) :
    6 * ((oneToN n).map (fun i => i * i)).sum
      = (n : Int) * ((n : Int) + 1) * (2 * (n : Int) + 1) := by
  induction n with
  | zero => simp [oneToN]
  | succ n ih =>
    rw [oneToN_succ, List.map_append, List.sum_append, mul_add, ih]
    simp only [List.map_cons, List.map_nil, List.sum_singleton]
    push_cast
    ring

theorem sum_squares (n : Nat) :
    ((oneToN n).map (fun i => i * i)).sum
      = (n : Int) * ((n : Int) + 1) * (2 * (n : Int) + 1) / 6 := by
  rw [← six_mul_sum_squares n]
  simp

end Ctream

/-! ## The step loop, pure and with the arena -/

namespace Ctream

variable {H A R : Type}

theorem foldl_bind_none (steps : List (PipelineStep H)) :
    steps.foldl (fun handle step => handle.bind step) (none : Option H) = none := by
  induction steps with
  | nil => rfl
  | cons step steps ih => simpa using ih

theorem foldl_bind_some (steps : List (PipelineStep H)) (x : H) :
    steps.foldl (fun handle step => handle.bind step) (some x) = runSteps steps x := by
  induction steps generalizing x with
  | nil => rfl
  | cons step steps ih =>
    simp only [List.foldl_cons, Option.some_bind, runSteps]
    cases step x with
    | none => exact foldl_bind_none steps
    | some y => exact ih y

theorem computeItem_eq_spec (s : Ctream H) (i : Nat) :
    s.computeItem i = specComputeItem s.m_sourceData s.m_pipeline i := by
  unfold computeItem specComputeItem
  cases s.m_sourceData i with
  | none => exact (foldl_bind_none _).symm
  | some x => exact (foldl_bind_some _ x).symm

theorem runStepsIn_append (p q : List (ArenaStep H)) (x : H) (arena : BasicArena) :
    runStepsIn (p ++ q) x arena
      = match runStepsIn p x arena with
        | (none, arena') => (none, arena')
        | (some y, arena') => runStepsIn q y arena' := by
  induction p generalizing x arena with
  | nil => rfl
  | cons step p ih =>
    simp only [List.cons_append, runStepsIn]
    rcases hstep : step x arena with ⟨_ | y, arena'⟩
    · rfl
    · exact ih y arena'

/-- A step that returns null ends the loop: the steps after it are not run, the
arena is the one that step left. -/
theorem runStepsIn_null (pre rest : List (ArenaStep H)) (step : ArenaStep H) (x y : H)
    (arena a₁ a₂ : BasicArena) (hpre : runStepsIn pre x arena = (some y, a₁))
    (hstep : step y a₁ = (none, a₂)) :
    runStepsIn (pre ++ step :: rest) x arena = (none, a₂) := by
  rw [runStepsIn_append, hpre]
  simp only [runStepsIn, hstep]

theorem runStepsIn_extract (gs : List (H → H)) (x : H) (arena : BasicArena) :
    runStepsIn (gs.map extractStep) x arena
      = (runSteps (gs.map (fun g elt => some (g elt))) x, arena) := by
  induction gs generalizing x with
  | nil => rfl
  | cons g gs ih =>
    simp only [List.map_cons, runStepsIn, runSteps, extractStep]
    exact ih (g x)

theorem computeItemIn_extract (sourceData : Nat → Option H) (gs : List (H → H)) (i : Nat)
    (arena : BasicArena) :
    computeItemIn sourceData (gs.map extractStep) i arena
      = ((sourceData i).bind (runSteps (gs.map (fun g elt => some (g elt)))), arena) := by
  unfold computeItemIn
  cases sourceData i with
  | none => rfl
  | some x => exact runStepsIn_extract gs x arena

theorem computeItemsIn_extract (sourceData : Nat → Option H) (gs : List (H → H))
    (idxs : List Nat) (arena : BasicArena) :
    computeItemsIn sourceData (gs.map extractStep) idxs arena
      = (idxs.map (fun i =>
          (sourceData i).bind (runSteps (gs.map (fun g elt => some (g elt))))), arena) := by
  induction idxs with
  | nil => rfl
  | cons i idxs ih =>
    simp only [computeItemsIn, computeItemIn_extract, ih, List.map_cons]

theorem foldl_extract_pipeline (gs : List (H → H)) (s : Ctream H) :
    (gs.foldl Ctream.extract s).m_pipeline
        = s.m_pipeline ++ gs.map (fun g elt => some (g elt))
    ∧ (gs.foldl Ctream.extract s).m_sourceData = s.m_sourceData
    ∧ (gs.foldl Ctream.extract s).m_containerSize = s.m_containerSize := by
  induction gs generalizing s with
  | nil => simp
  | cons g gs ih =>
    obtain ⟨h₁, h₂, h₃⟩ := ih (s.extract g)
    refine ⟨?_, ?_, ?_⟩
    · rw [List.foldl_cons, h₁]
      simp [Ctream.extract, internalCtor]
    · rw [List.foldl_cons, h₂]; rfl
    · rw [List.foldl_cons, h₃]; rfl

end Ctream

/-! ## The arena: one allocation -/

namespace BasicArena

theorem firstAvailableIndex_some (size : Nat) :
    ∀ (ps : List Page) (i : Nat), firstAvailableIndex size ps = some i →
      ∃ p, ps[i]? = some p ∧ toSizeT (availableSizeOnPage p) > size
        ∧ ∀ j q, j < i → ps[j]? = some q → ¬ toSizeT (availableSizeOnPage q) > size := by
  intro ps
  induction ps with
  | nil => intro i h; simp [firstAvailableIndex] at h
  | cons p ps ih =>
    intro i h
    by_cases hp : toSizeT (availableSizeOnPage p) > size
    · simp only [firstAvailableIndex, hp, if_true, Option.some.injEq] at h
      subst h
      exact ⟨p, List.getElem?_cons_zero, hp, fun j q hj => absurd hj (Nat.not_lt_zero j)⟩
    · simp only [firstAvailableIndex, hp, if_false, Option.map_eq_some'] at h
      obtain ⟨i', hi', rfl⟩ := h
      obtain ⟨p', hp', hcond, hbefore⟩ := ih i' hi'
      refine ⟨p', by simpa using hp', hcond, ?_⟩
      intro j q hj hq
      cases j with
      | zero =>
        simp only [List.getElem?_cons_zero, Option.some.injEq] at hq
        subst hq; exact hp
      | succ j =>
        simp only [List.getElem?_cons_succ] at hq
        exact hbefore j q (by omega) hq

theorem firstAvailableIndex_none (size : Nat) :
    ∀ ps : List Page, firstAvailableIndex size ps = none ↔
      ∀ p ∈ ps, ¬ toSizeT (availableSizeOnPage p) > size := by
  intro ps
  induction ps with
  | nil => simp [firstAvailableIndex]
  | cons p ps ih =>
    by_cases hp : toSizeT (availableSizeOnPage p) > size
    · simp [firstAvailableIndex, hp]
    · simp only [firstAvailableIndex, hp, if_false, Option.map_eq_none', ih, List.mem_cons,
        forall_eq_or_imp, not_false_eq_true, true_and]

theorem allocate_of_some (a : BasicArena) (size i : Nat) (p : Page)
    (hidx : firstAvailableIndex size a.m_pages = some i) (hp : a.m_pages[i]? = some p) :
    a.allocate size
      = (⟨p.data, p.cursor⟩,
          ⟨a.m_pages.set i ⟨p.data, (p.cursor + size) % 2 ^ 64, p.size⟩, a.m_objects⟩) := by
  simp only [allocate, firstAvailablePage, hidx, hp]

theorem allocate_of_none (a : BasicArena) (size : Nat)
    (hidx : firstAvailableIndex size a.m_pages = none) :
    a.allocate size
      = (⟨a.m_pages.length, 0⟩,
          ⟨a.m_pages ++ [⟨a.m_pages.length, size % 2 ^ 64,
              if size > fine_tuning.PAGE_SIZE then size else fine_tuning.PAGE_SIZE⟩],
            a.m_objects⟩) := by
  simp only [allocate, firstAvailablePage, hidx, List.getElem?_concat_length, initPage,
    Nat.zero_add]
  congr 2
  simp

/-- On a page of a reachable arena the available size, converted to `size_t`, is
the capacity minus the cursor. -/
theorem toSizeT_available (i : Nat) (p : Page) (hp : PageOk i p) :
    toSizeT (availableSizeOnPage p) = p.size - p.cursor := by
  obtain ⟨_, hle, hlt, hbig⟩ := hp
  simp only [toSizeT, availableSizeOnPage, occupiedSizeOnPage, toLong]
  by_cases h63 : p.size < 2 ^ 63
  · have hc : p.cursor < 2 ^ 63 := by omega
    simp only [h63, hc, if_true]
    omega
  · have hc : p.cursor = p.size := hbig (by omega)
    rw [hc]
    simp

/-- One `allocate(size)` on a reachable arena: the arena stays reachable, the
region `[offset, offset + size)` starts at the old cursor of its page and ends at
the new one, the other pages are untouched, the destructor log is untouched. -/
theorem allocate_spec (a : BasicArena) (size : Nat) (hok : a.Ok) (hsize : size < 2 ^ 64) :
    (a.allocate size).2.Ok
    ∧ (∃ p', (a.allocate size).2.m_pages[(a.allocate size).1.block]? = some p'
        ∧ p'.cursor = (a.allocate size).1.offset + size ∧ p'.cursor ≤ p'.size)
    ∧ (∀ p, a.m_pages[(a.allocate size).1.block]? = some p →
        p.cursor = (a.allocate size).1.offset)
    ∧ a.GrowsTo (a.allocate size).2
    ∧ (a.allocate size).2.m_objects = a.m_objects := by
  rcases hidx : firstAvailableIndex size a.m_pages with _ | i
  · rw [allocate_of_none a size hidx]
    have hpage : fine_tuning.PAGE_SIZE = 65536 := rfl
    have hmod : size % 2 ^ 64 = size := Nat.mod_eq_of_lt hsize
    simp only [hmod]
    refine ⟨?_, ?_, ?_, ?_, trivial⟩
    · intro j q hq
      by_cases hj : j < a.m_pages.length
      · rw [List.getElem?_append_left hj] at hq
        exact hok j q hq
      · have hjl : a.m_pages.length ≤ j := by omega
        rw [List.getElem?_append_right hjl] at hq
        have hj0 : j - a.m_pages.length = 0 := by
          by_contra hne
          rw [List.getElem?_eq_none (by simp; omega)] at hq
          exact Option.noConfusion hq
        rw [hj0] at hq
        simp only [List.getElem?_cons_zero, Option.some.injEq] at hq
        subst hq
        refine ⟨by simp only; omega, ?_, ?_, ?_⟩ <;> simp only [hpage] <;> split <;> omega
    · refine ⟨_, List.getElem?_concat_length _ _, by simp, ?_⟩
      simp only [hpage]; split <;> omega
    · intro p hp
      rw [List.getElem?_eq_none (Nat.le_refl _)] at hp
      exact Option.noConfusion hp
    · intro j q hq
      have hj : j < a.m_pages.length := (List.getElem?_eq_some_iff.1 hq).1
      exact ⟨q, by rw [List.getElem?_append_left hj]; exact hq, rfl, rfl, Nat.le_refl _⟩
  · obtain ⟨p, hp, hcond, _⟩ := firstAvailableIndex_some size a.m_pages i hidx
    rw [allocate_of_some a size i p hidx hp]
    have hpok := hok i p hp
    rw [toSizeT_available i p hpok] at hcond
    obtain ⟨hdata, hle, hlt, hbig⟩ := hpok
    have hmod : (p.cursor + size) % 2 ^ 64 = p.cursor + size := Nat.mod_eq_of_lt (by omega)
    have hilt : i < a.m_pages.length := (List.getElem?_eq_some_iff.1 hp).1
    simp only [hmod]
    refine ⟨?_, ?_, ?_, ?_, trivial⟩
    · intro j q hq
      rw [List.getElem?_set] at hq
      by_cases hij : i = j
      · simp only [hij, if_true] at hq
        subst hij
        simp only [hilt, if_true, Option.some.injEq] at hq
        subst hq
        exact ⟨hdata, by simp only; omega, hlt, fun h => by simp only at h ⊢; omega⟩
      · simp only [hij, if_false] at hq
        exact hok j q hq
    · refine ⟨⟨p.data, p.cursor + size, p.size⟩, ?_, rfl, by simp only; omega⟩
      simp only [hdata]
      rw [List.getElem?_set]
      simp [hilt]
    · intro q hq
      simp only [hdata] at hq
      rw [hp] at hq
      simp only [Option.some.injEq] at hq
      subst hq; rfl
    · intro j q hq
      by_cases hij : i = j
      · subst hij
        rw [hp] at hq
        simp only [Option.some.injEq] at hq
        subst hq
        refine ⟨⟨p.data, p.cursor + size, p.size⟩, ?_, rfl, rfl, by simp only; omega⟩
        rw [List.getElem?_set]
        simp [hilt]
      · exact ⟨q, by rw [List.getElem?_set_ne hij]; exact hq, rfl, rfl, Nat.le_refl _⟩

theorem growsTo_refl (a : BasicArena) : a.GrowsTo a :=
  fun _ p hp => ⟨p, hp, rfl, rfl, Nat.le_refl _⟩

theorem growsTo_trans {a b c : BasicArena} (hab : a.GrowsTo b) (hbc : b.GrowsTo c) :
    a.GrowsTo c := by
  intro i p hp
  obtain ⟨q, hq, hd, hs, hc⟩ := hab i p hp
  obtain ⟨r, hr, hd', hs', hc'⟩ := hbc i q hq
  exact ⟨r, hr, hd'.trans hd, hs'.trans hs, le_trans hc hc'⟩

theorem empty_ok : BasicArena.empty.Ok := by
  intro i p hp
  simp [BasicArena.empty] at hp

end BasicArena

/-! ## The arena: sequences of allocations -/

theorem allocateAll_append (s₁ s₂ : List Nat) :
    ∀ a : BasicArena, allocateAll a (s₁ ++ s₂)
      = ((allocateAll a s₁).1 ++ (allocateAll (allocateAll a s₁).2 s₂).1,
          (allocateAll (allocateAll a s₁).2 s₂).2) := by
  induction s₁ with
  | nil => intro a; rfl
  | cons size s₁ ih =>
    intro a
    have h := ih (a.allocate size).2
    show allocateAll a (size :: (s₁ ++ s₂)) = _
    simp only [allocateAll]
    rw [h]
    rfl

/-- A sequence of `allocate` calls on a reachable arena: the arena stays reachable,
the regions handed out are pairwise without a common byte, they start at or after
the cursors the pages had before, the pages present before keep their place, block
and capacity, and every region lies inside its page up to the final cursor. -/
theorem allocateAll_spec :
    ∀ (sizes : List Nat) (a : BasicArena), a.Ok → (∀ sz ∈ sizes, sz < 2 ^ 64) →
      (allocateAll a sizes).2.Ok
      ∧ List.Pairwise Region.noCommonByte (allocateAll a sizes).1
      ∧ (∀ r ∈ (allocateAll a sizes).1, ∀ p : Page,
          a.m_pages[r.addr.block]? = some p → p.cursor ≤ r.addr.offset)
      ∧ a.GrowsTo (allocateAll a sizes).2
      ∧ (∀ r ∈ (allocateAll a sizes).1, ∃ p : Page,
          (allocateAll a sizes).2.m_pages[r.addr.block]? = some p
          ∧ r.addr.offset + r.size ≤ p.cursor ∧ p.cursor ≤ p.size) := by
  intro sizes
  induction sizes with
  | nil =>
    intro a hok _
    exact ⟨hok, List.Pairwise.nil, by simp [allocateAll], BasicArena.growsTo_refl a,
      by simp [allocateAll]⟩
  | cons size rest ih =>
    intro a hok hsizes
    have hsize : size < 2 ^ 64 := hsizes size (List.mem_cons_self _ _)
    obtain ⟨hok₁, ⟨p₁, hp₁, hend, _⟩, hstart, hgrow₁, _⟩ :=
      BasicArena.allocate_spec a size hok hsize
    obtain ⟨hok₂, hpair, hafter, hgrow₂, hin⟩ :=
      ih (a.allocate size).2 hok₁ (fun sz h => hsizes sz (List.mem_cons_of_mem _ h))
    simp only [allocateAll]
    refine ⟨hok₂, ?_, ?_, BasicArena.growsTo_trans hgrow₁ hgrow₂, ?_⟩
    · rw [List.pairwise_cons]
      refine ⟨?_, hpair⟩
      intro r' hr' ad hboth
      obtain ⟨⟨hb, _, hhi⟩, ⟨hb', hlo', _⟩⟩ := hboth
      simp only at hb hhi
      have hsame : r'.addr.block = (a.allocate size).1.block := by rw [← hb', hb]
      have := hafter r' hr' p₁ (by rw [hsame]; exact hp₁)
      omega
    · intro r hr p hp
      rcases List.mem_cons.1 hr with rfl | hr
      · exact le_of_eq (hstart p hp)
      · obtain ⟨q, hq, _, _, hle⟩ := hgrow₁ _ p hp
        exact le_trans hle (hafter r hr q hq)
    · intro r hr
      rcases List.mem_cons.1 hr with rfl | hr
      · obtain ⟨q, hq, _, _, hle⟩ := hgrow₂ _ p₁ hp₁
        exact ⟨q, hq, by simp only; omega, (hok₂ _ q hq).2.1⟩
      · exact hin r hr

/-! ## Concatenation -/

namespace Ctream

variable {H A R : Type}

theorem Concat_lawful (T : Type) (format : T → String) :
    (collectors.Concat T format).Lawful (fun _ => True) where
  supply := trivial
  accumulate _ _ _ := trivial
  combine_supply a _ := by simp [collectors.Concat]
  combine_accumulate a b x _ _ := by simp [collectors.Concat, String.append_assoc]

theorem foldl_Concat_data (format : H → String) (l : List H) (a : String) :
    (l.foldl (collectors.Concat H format).accumulate a).data
      = a.data ++ (l.map (fun x => (format x).data)).flatten := by
  induction l generalizing a with
  | nil => simp
  | cons x l ih =>
    rw [List.foldl_cons, ih]
    simp [collectors.Concat, String.data_append]

theorem collectSeq_Concat_data (s : Ctream H) (format : H → String) :
    (collectSeq s (collectors.Concat H format)).data
      = ((items s 0 s.m_containerSize).map (fun x => (format x).data)).flatten := by
  rw [collectSeq_eq]
  simp only [collectors.Concat]
  have h := foldl_Concat_data format (items s 0 s.m_containerSize) ""
  simpa [collectors.Concat] using h

end Ctream

/-! ## The arena: which page is chosen -/

namespace BasicArena

theorem firstAvailableIndex_of_first (size : Nat) (ps : List Page) (i : Nat) (p : Page)
    (hp : ps[i]? = some p) (hcond : toSizeT (availableSizeOnPage p) > size)
    (hbefore : ∀ j q, j < i → ps[j]? = some q → ¬ toSizeT (availableSizeOnPage q) > size) :
    firstAvailableIndex size ps = some i := by
  rcases h : firstAvailableIndex size ps with _ | i'
  · exact absurd hcond ((firstAvailableIndex_none size ps).1 h p (List.getElem?_mem hp))
  · obtain ⟨p', hp', hcond', hbefore'⟩ := firstAvailableIndex_some size ps i' h
    rcases Nat.lt_trichotomy i' i with hlt | heq | hgt
    · exact absurd hcond' (hbefore i' p' hlt hp')
    · rw [heq]
    · exact absurd hcond (hbefore' i p hgt hp)

/-- On a page of a reachable arena the available size is the capacity minus the
cursor: it is not negative and the subtraction of the two `long`s does not
overflow. -/
theorem available_eq (i : Nat) (p : Page) (hp : PageOk i p) :
    availableSizeOnPage p = ((p.size - p.cursor : Nat) : Int)
    ∧ 0 ≤ availableSizeOnPage p ∧ availableSizeOnPage p < 2 ^ 63 := by
  obtain ⟨_, hle, hlt, hbig⟩ := hp
  simp only [availableSizeOnPage, occupiedSizeOnPage, toLong]
  by_cases h63 : p.size < 2 ^ 63
  · have hc : p.cursor < 2 ^ 63 := by omega
    simp only [h63, hc, if_true]
    omega
  · have hc : p.cursor = p.size := hbig (by omega)
    rw [hc]
    simp

end BasicArena

/-! ## `Min` and `Max` with a strict weak ordering -/

namespace StrictWeakOrder

variable {T : Type} {comp : T → T → Bool}

theorem neg_trans (sw : StrictWeakOrder comp) (x y z : T) (hxz : comp x z = true) :
    comp x y = true ∨ comp y z = true := by
  cases hxy : comp x y with
  | true => exact Or.inl rfl
  | false =>
    cases hyz : comp y z with
    | true => exact Or.inr rfl
    | false =>
      exfalso
      have hyx : comp y x = false := by
        cases h : comp y x with
        | false => rfl
        | true => rw [sw.trans y x z h hxz] at hyz; exact Bool.noConfusion hyz
      have hzy : comp z y = false := by
        cases h : comp z y with
        | false => rfl
        | true => rw [sw.trans x z y hxz h] at hxy; exact Bool.noConfusion hxy
      rw [(sw.incomp_trans x y z hxy hyx hyz hzy).1] at hxz
      exact Bool.noConfusion hxz

theorem flip (sw : StrictWeakOrder comp) : StrictWeakOrder (fun a b => comp b a) where
  irrefl a := sw.irrefl a
  trans a b c hab hbc := sw.trans c b a hbc hab
  incomp_trans a b c h₁ h₂ h₃ h₄ := (sw.incomp_trans a b c h₂ h₁ h₄ h₃).symm

end StrictWeakOrder

namespace collectors

variable {T : Type} [Inhabited T] {comp : T → T → Bool}

theorem Max_eq_Min_flip (comp : T → T → Bool) : Max T comp = Min T (fun a b => comp b a) := rfl

theorem Min_lawful_of_strictWeakOrder (sw : StrictWeakOrder comp) :
    (Min T comp).Lawful Optional.Ok where
  supply := fun _ => rfl
  accumulate a x ha := by
    rcases a with ⟨av, _ | _⟩ <;> simp only [Min, Optional.Ok] at ha ⊢ <;> split_ifs <;> simp_all
  combine_supply a ha := by
    rcases a with ⟨av, _ | _⟩ <;> simp_all [Min, Optional.Ok]
  combine_accumulate a b x _ _ := by
    rcases a with ⟨av, _ | _⟩ <;> rcases b with ⟨bv, _ | _⟩ <;> simp only [Min]
    · simp
    · cases h : comp x bv <;> simp [h]
    · cases h : comp x av <;> simp [h]
    · have ht := sw.trans x bv av
      have hn := sw.neg_trans x bv av
      cases h₁ : comp x bv <;> cases h₂ : comp bv av <;> cases h₃ : comp x av <;>
        simp_all

theorem Max_lawful_of_strictWeakOrder (sw : StrictWeakOrder comp) :
    (Max T comp).Lawful Optional.Ok := by
  rw [Max_eq_Min_flip]
  exact Min_lawful_of_strictWeakOrder sw.flip

end collectors

namespace Ctream

variable {T : Type} [Inhabited T] {comp : T → T → Bool}

/-- The accumulation loop of `Min` keeps the first minimal element seen so far. -/
theorem foldl_Min_first (sw : StrictWeakOrder comp) :
    ∀ (rest pre : List T) (cur : T) (i : Nat), pre[i]? = some cur →
      (∀ x ∈ pre, comp x cur = false) →
      (∀ (j : Nat) (y : T), j < i → pre[j]? = some y → comp cur y = true) →
      ∃ (r : T) (i' : Nat),
        rest.foldl (collectors.Min T comp).accumulate ⟨cur, true⟩ = ⟨r, true⟩
        ∧ (pre ++ rest)[i']? = some r
        ∧ (∀ x ∈ pre ++ rest, comp x r = false)
        ∧ ∀ (j : Nat) (y : T), j < i' → (pre ++ rest)[j]? = some y → comp r y = true := by
  intro rest
  induction rest with
  | nil =>
    intro pre cur i hi hmin hbefore
    exact ⟨cur, i, rfl, by simpa using hi, by simpa using hmin, by simpa using hbefore⟩
  | cons b rest ih =>
    intro pre cur i hi hmin hbefore
    have hilt : i < pre.length := (List.getElem?_eq_some_iff.1 hi).1
    have hassoc : pre ++ b :: rest = (pre ++ [b]) ++ rest := by simp
    rw [hassoc, List.foldl_cons]
    cases hb : comp b cur with
    | true =>
      have hacc : (collectors.Min T comp).accumulate ⟨cur, true⟩ b = ⟨b, true⟩ := by
        simp [collectors.Min, hb]
      rw [hacc]
      apply ih (pre ++ [b]) b pre.length (List.getElem?_concat_length pre b)
      · intro x hx
        rcases List.mem_append.1 hx with hx | hx
        · cases hxb : comp x b with
          | false => rfl
          | true =>
            have h := hmin x hx
            rw [sw.trans x b cur hxb hb] at h
            exact Bool.noConfusion h
        · rw [List.mem_singleton.1 hx]; exact sw.irrefl b
      · intro j y hj hy
        rw [List.getElem?_append_left hj] at hy
        rcases sw.neg_trans b y cur hb with h | h
        · exact h
        · rw [hmin y (List.getElem?_mem hy)] at h
          exact Bool.noConfusion h
    | false =>
      have hacc : (collectors.Min T comp).accumulate ⟨cur, true⟩ b = ⟨cur, true⟩ := by
        simp [collectors.Min, hb]
      rw [hacc]
      apply ih (pre ++ [b]) cur i
      · rw [List.getElem?_append_left hilt]; exact hi
      · intro x hx
        rcases List.mem_append.1 hx with hx | hx
        · exact hmin x hx
        · rw [List.mem_singleton.1 hx]; exact hb
      · intro j y hj hy
        rw [List.getElem?_append_left (by omega)] at hy
        exact hbefore j y hj hy

/-- On a stream with at least one present item the sequential `Min` returns the
first of the minimal present items. -/
theorem collectSeq_Min_first (sw : StrictWeakOrder comp) (s : Ctream T)
    (hne : items s 0 s.m_containerSize ≠ []) :
    IsFirstMinimal comp (items s 0 s.m_containerSize)
      (collectSeq s (collectors.Min T comp)) := by
  rw [collectSeq_eq]
  generalize items s 0 s.m_containerSize = l at *
  cases l with
  | nil => exact absurd rfl hne
  | cons v l =>
    obtain ⟨r, i', hfold, hidx, hmin, hbefore⟩ :=
      foldl_Min_first sw l [v] v 0 rfl
        (fun x hx => by rw [List.mem_singleton.1 hx]; exact sw.irrefl v)
        (fun j y hj => absurd hj (Nat.not_lt_zero j))
    have hfold' : (v :: l).foldl (collectors.Min T comp).accumulate
        (collectors.Min T comp).supply = ⟨r, true⟩ := by
      rw [← hfold]; rfl
    rw [hfold']
    have hfin : (collectors.Min T comp).finish ⟨r, true⟩ = r := rfl
    rw [hfin]
    refine ⟨i', hidx, hmin, ?_⟩
    intro j y hj hy
    exact ⟨r, List.getElem?_mem hidx, hbefore j y hj hy⟩

/-- On a stream with at least one present item the sequential `Max` returns the
first of the maximal present items. -/
theorem collectSeq_Max_first (sw : StrictWeakOrder comp) (s : Ctream T)
    (hne : items s 0 s.m_containerSize ≠ []) :
    IsFirstMaximal comp (items s 0 s.m_containerSize)
      (collectSeq s (collectors.Max T comp)) := by
  rw [collectors.Max_eq_Min_flip]
  exact collectSeq_Min_first sw.flip s hne

end Ctream

/-! ## Callbacks that fail -/

namespace Ctream

variable {E H A R : Type}

theorem joinWorkers_eq_none (chunks : List (Attempt E A)) (e : E)
    (h : Attempt.throws e ∈ chunks) : joinWorkers chunks = none := by
  induction chunks with
  | nil => simp at h
  | cons ch chunks ih =>
    cases ch with
    | throws e' => rfl
    | done a =>
      have h' : Attempt.throws e ∈ chunks := by simpa using h
      simp only [joinWorkers, ih h', Option.map_none']

theorem joinWorkers_done (cs : List A) :
    joinWorkers (cs.map (fun a => (Attempt.done a : Attempt E A))) = some cs := by
  induction cs with
  | nil => rfl
  | cons a cs ih => simp only [List.map_cons, joinWorkers, ih, Option.map_some']

theorem joinWorkers_of_all_done (chunks : List (Attempt E A))
    (h : ∀ ch ∈ chunks, ∃ a, ch = Attempt.done a) : ∃ cs, joinWorkers chunks = some cs := by
  induction chunks with
  | nil => exact ⟨[], rfl⟩
  | cons ch chunks ih =>
    obtain ⟨a, rfl⟩ := h ch (List.mem_cons_self _ _)
    obtain ⟨cs, hcs⟩ := ih (fun ch' h' => h ch' (List.mem_cons_of_mem _ h'))
    exact ⟨a :: cs, by simp only [joinWorkers, hcs, Option.map_some']⟩

theorem runStepsThrowing_lift (steps : List (PipelineStep H)) (x : H) :
    runStepsThrowing (steps.map (liftStep : PipelineStep H → ThrowingStep E H)) x
      = Attempt.done (runSteps steps x) := by
  induction steps generalizing x with
  | nil => rfl
  | cons step steps ih =>
    simp only [List.map_cons, runStepsThrowing, liftStep, runSteps]
    cases step x with
    | none => rfl
    | some y => exact ih y

theorem computeItemThrowing_lift (s : Ctream H) (i : Nat) :
    computeItemThrowing s.m_sourceData
        (s.m_pipeline.map (liftStep : PipelineStep H → ThrowingStep E H)) i
      = Attempt.done (s.computeItem i) := by
  unfold computeItemThrowing computeItem
  cases s.m_sourceData i with
  | none => rfl
  | some x => exact runStepsThrowing_lift s.m_pipeline x

theorem accumulateThrowing_lift (s : Ctream H) (c : Collector H A R) (js : List Nat) (a : A) :
    accumulateThrowing s.m_sourceData
        (s.m_pipeline.map (liftStep : PipelineStep H → ThrowingStep E H))
        (fun a x => Attempt.done (c.accumulate a x)) js a
      = Attempt.done (js.foldl (accumulateItem s c) a) := by
  induction js generalizing a with
  | nil => rfl
  | cons j js ih =>
    simp only [accumulateThrowing, computeItemThrowing_lift, List.foldl_cons, accumulateItem]
    cases s.computeItem j with
    | none => exact ih a
    | some x => exact ih _

end Ctream

/-! ## The claims -/

open Ctream collectors

/-- C1: for every integer stream (any source sequence, any pipeline of steps) and
every thread count `k ≥ 2`, `collect` with `Sum` and with `Product` returns on the
parallel path (one fresh accumulator per index range, combined in partition order
into a fresh accumulator) the value of the sequential path; this holds with exact
integer arithmetic and with arithmetic modulo `2^w`. -/
theorem C1_sum_product_parallel_eq_sequential (s : Ctream Int) (t : Ctream Nat) (w k : Nat)
    (hk : 2 ≤ k) :
    s.collectPar (Sum Int) k = s.collectSeq (Sum Int)
    ∧ s.collectPar (Product Int) k = s.collectSeq (Product Int)
    ∧ t.collectPar (SumMod w) k = t.collectSeq (SumMod w)
    ∧ t.collectPar (ProductMod w) k = t.collectSeq (ProductMod w) :=
  ⟨collectPar_eq_collectSeq_of_lawful s _ (Sum_lawful Int) k (by omega),
   collectPar_eq_collectSeq_of_lawful s _ (Product_lawful Int) k (by omega),
   collectPar_eq_collectSeq_of_lawful t _ (SumMod_lawful w) k (by omega),
   collectPar_eq_collectSeq_of_lawful t _ (ProductMod_lawful w) k (by omega)⟩

/-- Witness of C1: five integers, a filter and a mapper, three workers; and three
bytes whose sum and product wrap modulo `2^8`. -/
theorem C1_sum_product_parallel_eq_sequential_witness :
    2 ≤ 3
    ∧ (((toCtream [3, -1, 4, 1, -5]).filter (fun x => x != 4)).map (fun x => x * 2)).collectPar
        (Sum Int) 3 = -4
    ∧ (((toCtream [3, -1, 4, 1, -5]).filter (fun x => x != 4)).map (fun x => x * 2)).collectSeq
        (Sum Int) = -4
    ∧ (toCtream [250, 7, 9]).collectPar (ProductMod 8) 3 = 134
    ∧ (toCtream [250, 7, 9]).collectSeq (ProductMod 8) = 134
    ∧ (toCtream [250, 7, 9]).collectPar (SumMod 8) 3 = (toCtream [250, 7, 9]).collectSeq (SumMod 8)
    ∧ (((toCtream [3, -1, 4, 1, -5]).filter (fun x => x != 4)).map (fun x => x * 2)).collectPar
        (Product Int) 3
      = (((toCtream [3, -1, 4, 1, -5]).filter (fun x => x != 4)).map (fun x => x * 2)).collectSeq
        (Product Int) :=
  have h := C1_sum_product_parallel_eq_sequential
    (((toCtream [3, -1, 4, 1, -5]).filter (fun x => x != 4)).map (fun x => x * 2))
    (toCtream [250, 7, 9]) 8 3 (by decide)
  ⟨by decide, by decide, by decide, by decide, by decide, h.2.2.1, h.2.1⟩

/-- C2: for every integer stream, whatever its pipeline (also one whose filters
empty whole partitions), and every thread count `k ≥ 2`, `collect` with `Min` and
with `Max` under the default `<` returns on the parallel path the value of the
sequential path. -/
theorem C2_min_max_parallel_eq_sequential (s : Ctream Int) (k : Nat) (hk : 2 ≤ k) :
    s.collectPar (Min Int defaultComp) k = s.collectSeq (Min Int defaultComp)
    ∧ s.collectPar (Max Int defaultComp) k = s.collectSeq (Max Int defaultComp) :=
  ⟨collectPar_eq_collectSeq_of_lawful s _ Min_lawful k (by omega),
   collectPar_eq_collectSeq_of_lawful s _ Max_lawful k (by omega)⟩

/-- Witness of C2: six integers in three partitions of two, the filter drops the
whole first partition. -/
theorem C2_min_max_parallel_eq_sequential_witness :
    2 ≤ 3
    ∧ (partitions 6 3 = [(0, 2), (2, 4), (4, 6)])
    ∧ ((toCtream [-9, -8, 5, 2, 7, 3]).filter (fun x => decide (0 < x))).collectPar
        (Min Int defaultComp) 3 = 2
    ∧ ((toCtream [-9, -8, 5, 2, 7, 3]).filter (fun x => decide (0 < x))).collectSeq
        (Min Int defaultComp) = 2
    ∧ ((toCtream [-9, -8, 5, 2, 7, 3]).filter (fun x => decide (0 < x))).collectPar
        (Max Int defaultComp) 3
      = ((toCtream [-9, -8, 5, 2, 7, 3]).filter (fun x => decide (0 < x))).collectSeq
        (Max Int defaultComp) :=
  ⟨by decide, by decide, by decide, by decide,
   (C2_min_max_parallel_eq_sequential
     ((toCtream [-9, -8, 5, 2, 7, 3]).filter (fun x => decide (0 < x))) 3 (by decide)).2⟩

/-- C3: for every sequence `xs` streamed with no step, `collect` with `ToVector`
(any chunk size) and with `ToList` returns exactly `xs`, on the sequential path, on
the parallel path with any `k ≥ 2` workers, and through `collect`, `toList()` and
`toVector()` for a hardware concurrency `hc`; on the parallel path the
per-partition accumulators concatenated in partition order are `xs`. -/
theorem C3_toVector_toList_preserve_order {H : Type} (xs : List H) (m_chunkSize k hc : Nat)
    (hk : 2 ≤ k) (hhc : 0 < hc) :
    (toCtream xs).collectSeq (ToVector H m_chunkSize) = xs
    ∧ (toCtream xs).collectPar (ToVector H m_chunkSize) k = xs
    ∧ (toCtream xs).collectSeq (ToList H) = xs
    ∧ (toCtream xs).collectPar (ToList H) k = xs
    ∧ (chunks (toCtream xs) (ToVector H m_chunkSize) k).flatten = xs
    ∧ (chunks (toCtream xs) (ToList H) k).flatten = xs
    ∧ (∀ h : Nat, (toCtream xs).collect (ToVector H m_chunkSize) h = xs)
    ∧ (∀ h : Nat, (toCtream xs).toList h = xs)
    ∧ (toCtream xs).toVector hc = some xs := by
  have hk' : 0 < k := by omega
  refine ⟨?_, ?_, ?_, ?_, ?_, ?_, ?_, ?_, ?_⟩
  · rw [collectSeq_ToVector, items_toCtream]
  · rw [collectPar_ToVector _ _ _ hk', items_toCtream]
  · rw [collectSeq_ToList, items_toCtream]
  · rw [collectPar_ToList _ _ hk', items_toCtream]
  · rw [chunks_ToVector_flatten _ _ _ hk', items_toCtream]
  · rw [chunks_ToList_flatten _ _ hk', items_toCtream]
  · intro h; rw [collect_ToVector, items_toCtream]
  · intro h; rw [Ctream.toList, collect_ToList, items_toCtream]
  · rw [toVector_eq _ _ hhc, items_toCtream]

/-- Witness of C3: seven elements on three workers, one logical core. -/
theorem C3_toVector_toList_preserve_order_witness :
    2 ≤ 3 ∧ 0 < 1
    ∧ chunks (toCtream [10, 20, 30, 40, 50, 60, 70]) (ToVector Nat 3) 3
        = [[10, 20], [30, 40], [50, 60, 70]]
    ∧ (toCtream [10, 20, 30, 40, 50, 60, 70]).collectPar (ToVector Nat 3) 3
        = [10, 20, 30, 40, 50, 60, 70]
    ∧ (toCtream [10, 20, 30, 40, 50, 60, 70]).toVector 1 = some [10, 20, 30, 40, 50, 60, 70] :=
  have h := C3_toVector_toList_preserve_order [10, 20, 30, 40, 50, 60, 70] 3 3 1
    (by decide) (by decide)
  ⟨by decide, by decide, by decide, h.2.1, h.2.2.2.2.2.2.2.2⟩

/-- C4: for every sequence `xs` and predicate `p`, `filter(p)` followed by
`ToVector` yields exactly `xs.filter p` (the elements satisfying `p`, in source
order) on the sequential path, on the parallel path with any `k ≥ 2` workers and
through `collect` and `toVector()`; so its length is the number of elements
satisfying `p`, each of its elements satisfies `p`, and it is a subsequence of `xs`. -/
theorem C4_filter_toVector {H : Type} (xs : List H) (p : H → Bool) (m_chunkSize k hc : Nat)
    (hk : 2 ≤ k) (hhc : 0 < hc) :
    ((toCtream xs).filter p).collectSeq (ToVector H m_chunkSize) = xs.filter p
    ∧ ((toCtream xs).filter p).collectPar (ToVector H m_chunkSize) k = xs.filter p
    ∧ (∀ h : Nat, ((toCtream xs).filter p).collect (ToVector H m_chunkSize) h = xs.filter p)
    ∧ ((toCtream xs).filter p).toVector hc = some (xs.filter p)
    ∧ (((toCtream xs).filter p).collectPar (ToVector H m_chunkSize) k).length = xs.countP p
    ∧ (∀ x ∈ ((toCtream xs).filter p).collectPar (ToVector H m_chunkSize) k, p x = true)
    ∧ List.Sublist (((toCtream xs).filter p).collectPar (ToVector H m_chunkSize) k) xs := by
  have hk' : 0 < k := by omega
  have hpar : ((toCtream xs).filter p).collectPar (ToVector H m_chunkSize) k = xs.filter p := by
    rw [collectPar_ToVector _ _ _ hk', items_filter]
  refine ⟨?_, hpar, ?_, ?_, ?_, ?_, ?_⟩
  · rw [collectSeq_ToVector, items_filter]
  · intro h; rw [collect_ToVector, items_filter]
  · rw [toVector_eq _ _ hhc, items_filter]
  · rw [hpar, List.countP_eq_length_filter]
  · rw [hpar]; intro x hx; exact (List.mem_filter.1 hx).2
  · rw [hpar]; exact List.filter_sublist xs

/-- Witness of C4: the even numbers of six, on two workers. -/
theorem C4_filter_toVector_witness :
    2 ≤ 2 ∧ 0 < 4
    ∧ ((toCtream [1, 2, 3, 4, 6, 5]).filter (fun x => x % 2 == 0)).collectPar (ToVector Nat 0) 2
        = [2, 4, 6]
    ∧ ((toCtream [1, 2, 3, 4, 6, 5]).filter (fun x => x % 2 == 0)).toVector 4 = some [2, 4, 6] :=
  have h := C4_filter_toVector [1, 2, 3, 4, 6, 5] (fun x => x % 2 == 0) 0 2 4
    (by decide) (by decide)
  ⟨by decide, by decide, h.2.1, h.2.2.2.1⟩

/-- C5: for every container size `n` and thread count `k ≥ 2` the parallel branch
builds exactly `k` index ranges; range `i < k - 1` is `[i*(n/k), (i+1)*(n/k))` and
the last one is `[(k-1)*(n/k), n)`; consecutive ranges are contiguous; every index
of `[0, n)` lies in exactly one range and no range holds an index `≥ n`; all ranges
have size `n / k` except the last, of size `n / k + n % k`. -/
theorem C5_partitions_cover (n k : Nat) (hk : 2 ≤ k) :
    (partitions n k).length = k
    ∧ (∀ i, i < k → (partitions n k)[i]?
        = some (i * (n / k), if i = k - 1 then n else (i + 1) * (n / k)))
    ∧ (∀ i r r', (partitions n k)[i]? = some r → (partitions n k)[i + 1]? = some r' →
        r.2 = r'.1)
    ∧ (∀ j, j < n → ∃! i : Nat, ∃ r : Nat × Nat, (partitions n k)[i]? = some r ∧ inRange r j)
    ∧ (∀ r ∈ partitions n k, ∀ j, inRange r j → j < n)
    ∧ (∀ i r, (partitions n k)[i]? = some r →
        r.1 ≤ r.2 ∧ r.2 - r.1 = if i = k - 1 then n / k + n % k else n / k) := by
  have hk0 : 0 < k := by omega
  have hsum := pred_mul_div_add n k hk0
  have key := partitions_getElem?_eq n k
  refine ⟨by rw [partitions, partitionLoop_length], fun i hi => partitions_getElem? n k i hi,
    ?_, ?_, ?_, ?_⟩
  · intro i r r' h h'
    obtain ⟨_, rfl⟩ := key i r h
    obtain ⟨hi', rfl⟩ := key (i + 1) r' h'
    have hne : i ≠ k - 1 := by omega
    simp [hne]
  · intro j hj
    by_cases hlow : j < (k - 1) * (n / k)
    · have hq : 0 < n / k := by
        rcases Nat.eq_zero_or_pos (n / k) with h0 | h0
        · rw [h0] at hlow; simp at hlow
        · exact h0
      have hdiv : j / (n / k) < k - 1 := by
        rw [Nat.div_lt_iff_lt_mul hq]; exact hlow
      refine ⟨j / (n / k), ⟨_, partitions_getElem? n k _ (by omega), ?_⟩, ?_⟩
      · have hne : j / (n / k) ≠ k - 1 := by omega
        simp only [inRange, hne, if_false]
        refine ⟨Nat.div_mul_le_self j (n / k), ?_⟩
        rw [Nat.mul_comm]
        exact Nat.lt_mul_div_succ j hq
      · rintro i ⟨r, h, hin⟩
        obtain ⟨hi, rfl⟩ := key i r h
        simp only [inRange] at hin
        by_cases hlast : i = k - 1
        · rw [hlast] at hin; omega
        · simp only [hlast, if_false] at hin
          exact (Nat.div_eq_of_lt_le hin.1 hin.2).symm
    · refine ⟨k - 1, ⟨_, partitions_getElem? n k _ (by omega), ?_⟩, ?_⟩
      · simp only [inRange, if_true]; omega
      · rintro i ⟨r, h, hin⟩
        obtain ⟨hi, rfl⟩ := key i r h
        simp only [inRange] at hin
        by_cases hlast : i = k - 1
        · exact hlast
        · simp only [hlast, if_false] at hin
          have := mul_div_le_of_lt_pred n k i (by omega)
          omega
  · intro r hr j hin
    obtain ⟨i, hi⟩ := List.getElem?_of_mem hr
    obtain ⟨hik, rfl⟩ := key i r hi
    simp only [inRange] at hin
    by_cases hlast : i = k - 1
    · simp only [hlast, if_true] at hin; exact hin.2
    · simp only [hlast, if_false] at hin
      have := mul_div_le_of_lt_pred n k i (by omega)
      generalize n / k = q at *
      generalize n % k = m at *
      omega
  · exact fun i r h => partitions_size n k i r h

/-- Witness of C5: ten indices on three workers, the last range absorbs the remainder. -/
theorem C5_partitions_cover_witness :
    2 ≤ 3 ∧ partitions 10 3 = [(0, 3), (3, 6), (6, 10)]
    ∧ (∀ i r, (partitions 10 3)[i]? = some r →
        r.1 ≤ r.2 ∧ r.2 - r.1 = if i = 3 - 1 then 10 / 3 + 10 % 3 else 10 / 3) :=
  ⟨by decide, by decide, (C5_partitions_cover 10 3 (by decide)).2.2.2.2.2⟩

/-- C6: the thread count computed by `collect` is the specification's candidate
`min(1 + n / 800, 2 * h)`; `collect` runs the sequential branch when the candidate
is below 2 and otherwise the parallel branch with exactly that many workers (one
chunk each); a container of fewer than 800 elements is always evaluated
sequentially. -/
theorem C6_thread_count {H A R : Type} (s : Ctream H) (c : Collector H A R) (h : Nat) :
    nThreads s.m_containerSize h = specCandidate s.m_containerSize h
    ∧ (specCandidate s.m_containerSize h < 2 → s.collect c h = s.collectSeq c)
    ∧ (¬ specCandidate s.m_containerSize h < 2 →
        s.collect c h = s.collectPar c (specCandidate s.m_containerSize h)
        ∧ (chunks s c (specCandidate s.m_containerSize h)).length
            = specCandidate s.m_containerSize h
        ∧ (partitions s.m_containerSize (specCandidate s.m_containerSize h)).length
            = specCandidate s.m_containerSize h)
    ∧ (s.m_containerSize < 800 →
        specCandidate s.m_containerSize h < 2 ∧ s.collect c h = s.collectSeq c) := by
  have e : nThreads s.m_containerSize h = specCandidate s.m_containerSize h := rfl
  refine ⟨e, ?_, ?_, ?_⟩
  · intro hlt
    simp only [collect, e, hlt, if_true]
  · intro hge
    refine ⟨by simp only [collect, e, hge, if_false], chunks_length s c _, ?_⟩
    rw [partitions, partitionLoop_length]
  · intro hsmall
    have hdiv : s.m_containerSize / 800 = 0 := Nat.div_eq_of_lt hsmall
    have hlt : specCandidate s.m_containerSize h < 2 := by
      have : specCandidate s.m_containerSize h ≤ 1 + s.m_containerSize / 800 :=
        Nat.min_le_left _ _
      omega
    exact ⟨hlt, by simp only [collect, e, hlt, if_true]⟩

/-- Witness of C6: 799 elements on 64 cores stay sequential (candidate 1), 1700
elements on 64 cores use 3 workers, on one core 2 workers. -/
theorem C6_thread_count_witness :
    specCandidate 799 64 = 1 ∧ nThreads 1700 64 = 3 ∧ nThreads 1700 1 = 2
    ∧ nThreads 1700 0 = 0
    ∧ (toCtream [5, 6, 7]).collect (Sum Int) 64 = (toCtream [5, 6, 7]).collectSeq (Sum Int) :=
  ⟨by decide, by decide, by decide, by decide,
   ((C6_thread_count (toCtream [5, 6, 7]) (Sum Int) 64).2.2.2 (by decide)).2⟩

/-- C7 as stated fails: 800 elements on one logical core take the parallel path
with two workers, and each worker gets 400 indices, fewer than
`MULTITHREAD_MIN_SIZE`. -/
theorem C7_counterexample :
    2 ≤ nThreads 800 1
    ∧ partitions 800 (nThreads 800 1) = [(0, 400), (400, 800)]
    ∧ ¬ (∀ r ∈ partitions 800 (nThreads 800 1),
          fine_tuning.MULTITHREAD_MIN_SIZE ≤ r.2 - r.1) := by
  decide

/-- C7, amended: whenever `collect` takes the parallel path with the default
constants, the container has at least `MULTITHREAD_MIN_SIZE = 800` elements and
every worker's index range contains at least `MULTITHREAD_MIN_SIZE / 2 = 400`
indices (at least `n / nThreads` of them). -/
theorem C7_partition_size_amended (n hc : Nat) (hpar : ¬ nThreads n hc < 2) :
    fine_tuning.MULTITHREAD_MIN_SIZE ≤ n
    ∧ ∀ r ∈ partitions n (nThreads n hc),
        fine_tuning.MULTITHREAD_MIN_SIZE / 2 ≤ r.2 - r.1
        ∧ n / nThreads n hc ≤ r.2 - r.1 := by
  have hle : nThreads n hc ≤ 1 + n / 800 := Nat.min_le_left _ _
  generalize nThreads n hc = k at *
  have h800 : (k - 1) * 800 ≤ n := by
    have h1 : (k - 1) * 800 ≤ (n / 800) * 800 := Nat.mul_le_mul_right _ (by omega)
    exact le_trans h1 (Nat.div_mul_le_self n 800)
  have hdiv : 400 ≤ n / k := by
    rw [Nat.le_div_iff_mul_le (by omega)]
    have e : (k - 1) * 800 = (k - 1) * 400 + (k - 1) * 400 := by omega
    have e' : 400 * k = 400 * (k - 1) + 400 := by
      conv_lhs => rw [show k = (k - 1) + 1 by omega]
      rw [Nat.mul_add, Nat.mul_one]
    omega
  refine ⟨by simp only [fine_tuning.MULTITHREAD_MIN_SIZE]; omega, ?_⟩
  intro r hr
  obtain ⟨i, hi⟩ := List.getElem?_of_mem hr
  have hsz := (partitions_size n k i r hi).2
  have hq : n / k ≤ r.2 - r.1 := by
    rw [hsz]; split <;> omega
  exact ⟨by simp only [fine_tuning.MULTITHREAD_MIN_SIZE]; omega, hq⟩

/-- Witness of C7 amended: 800 elements on one logical core. -/
theorem C7_partition_size_amended_witness :
    ¬ nThreads 800 1 < 2
    ∧ (fine_tuning.MULTITHREAD_MIN_SIZE ≤ 800
      ∧ ∀ r ∈ partitions 800 (nThreads 800 1),
          fine_tuning.MULTITHREAD_MIN_SIZE / 2 ≤ r.2 - r.1
          ∧ 800 / nThreads 800 1 ≤ r.2 - r.1) :=
  ⟨by decide, C7_partition_size_amended 800 1 (by decide)⟩

/-- C8: for every non-empty integer sequence `xs`, `min()` returns an element of `xs`
that is `≤` every element and `max()` an element that is `≥` every element, for
every hardware concurrency and also on the parallel path forced to any `k ≥ 2`
workers; hence an element that is the extreme of `xs` is the value returned,
wherever it stands. -/
theorem C8_min_max_extreme (xs : List Int) (hne : xs ≠ []) (k hc : Nat) (hk : 2 ≤ k) :
    ((toCtream xs).min hc ∈ xs ∧ ∀ x ∈ xs, (toCtream xs).min hc ≤ x)
    ∧ ((toCtream xs).max hc ∈ xs ∧ ∀ x ∈ xs, x ≤ (toCtream xs).max hc)
    ∧ ((toCtream xs).collectPar (Min Int defaultComp) k ∈ xs
        ∧ ∀ x ∈ xs, (toCtream xs).collectPar (Min Int defaultComp) k ≤ x)
    ∧ ((toCtream xs).collectPar (Max Int defaultComp) k ∈ xs
        ∧ ∀ x ∈ xs, x ≤ (toCtream xs).collectPar (Max Int defaultComp) k)
    ∧ (∀ m ∈ xs, (∀ x ∈ xs, m ≤ x) →
        (toCtream xs).min hc = m ∧ (toCtream xs).collectPar (Min Int defaultComp) k = m)
    ∧ (∀ m ∈ xs, (∀ x ∈ xs, x ≤ m) →
        (toCtream xs).max hc = m ∧ (toCtream xs).collectPar (Max Int defaultComp) k = m) := by
  have hk' : 0 < k := by omega
  have hitems := items_toCtream xs
  have hne' : items (toCtream xs) 0 (toCtream xs).m_containerSize ≠ [] := by
    rw [hitems]; exact hne
  have hmin := collectSeq_Min_mem_le (toCtream xs) hne'
  have hmax := collectSeq_Max_mem_le (toCtream xs) hne'
  rw [hitems] at hmin hmax
  have e₁ : (toCtream xs).min hc = (toCtream xs).collectSeq (Min Int defaultComp) :=
    collect_eq_collectSeq_of_lawful _ _ Min_lawful hc
  have e₂ : (toCtream xs).max hc = (toCtream xs).collectSeq (Max Int defaultComp) :=
    collect_eq_collectSeq_of_lawful _ _ Max_lawful hc
  have e₃ := collectPar_eq_collectSeq_of_lawful (toCtream xs) _ Min_lawful k hk'
  have e₄ := collectPar_eq_collectSeq_of_lawful (toCtream xs) _ Max_lawful k hk'
  rw [e₁, e₂, e₃, e₄]
  refine ⟨hmin, hmax, hmin, hmax, ?_, ?_⟩
  · intro m hm hall
    exact ⟨le_antisymm (hmin.2 m hm) (hall _ hmin.1), le_antisymm (hmin.2 m hm) (hall _ hmin.1)⟩
  · intro m hm hall
    exact ⟨le_antisymm (hall _ hmax.1) (hmax.2 m hm), le_antisymm (hall _ hmax.1) (hmax.2 m hm)⟩

/-- Witness of C8: the vector of the tests in small, a `-6` among values `1..3`. -/
theorem C8_min_max_extreme_witness :
    ([2, 3, 1, -6, 2, 3, 1] : List Int) ≠ [] ∧ 2 ≤ 3
    ∧ (toCtream [2, 3, 1, -6, 2, 3, 1]).collectPar (Min Int defaultComp) 3 = -6
    ∧ (toCtream [2, 3, 1, -6, 2, 3, 1]).collectPar (Max Int defaultComp) 3 = 3
    ∧ ((toCtream [2, 3, 1, -6, 2, 3, 1]).min 4 ∈ [2, 3, 1, -6, 2, 3, 1]
        ∧ ∀ x ∈ [2, 3, 1, -6, 2, 3, 1], (toCtream [2, 3, 1, -6, 2, 3, 1]).min 4 ≤ x) :=
  ⟨by decide, by decide, by decide, by decide,
   (C8_min_max_extreme [2, 3, 1, -6, 2, 3, 1] (by decide) 3 4 (by decide)).1⟩

/-- C9: on a stream that yields no element (every index is absent: the input is
empty or every element is filtered out) `min()` and `max()` return `T{}`, which is
`0`, `sum()` returns `0`, and `toList()`, `collect(ToVector)` and `toVector()`
return the empty sequence, on the sequential path and on the parallel path with
any `k ≥ 2` workers. -/
theorem C9_empty_stream (s : Ctream Int) (m_chunkSize k hc : Nat) (hk : 2 ≤ k) (hhc : 0 < hc)
    (hempty : ∀ i, i < s.m_containerSize → s.computeItem i = none) :
    (∀ h : Nat, s.min h = 0 ∧ s.max h = 0 ∧ s.sum h = 0 ∧ s.toList h = []
        ∧ s.collect (ToVector Int m_chunkSize) h = [])
    ∧ s.toVector hc = some []
    ∧ (s.collectSeq (Min Int defaultComp) = 0 ∧ s.collectSeq (Max Int defaultComp) = 0
        ∧ s.collectSeq (Sum Int) = 0 ∧ s.collectSeq (ToList Int) = []
        ∧ s.collectSeq (ToVector Int m_chunkSize) = [])
    ∧ (s.collectPar (Min Int defaultComp) k = 0 ∧ s.collectPar (Max Int defaultComp) k = 0
        ∧ s.collectPar (Sum Int) k = 0 ∧ s.collectPar (ToList Int) k = []
        ∧ s.collectPar (ToVector Int m_chunkSize) k = []) := by
  have hk' : 0 < k := by omega
  have hnil := items_eq_nil_of_absent s hempty
  have hmin : s.collectSeq (Min Int defaultComp) = 0 := collectSeq_of_no_item s _ hnil
  have hmax : s.collectSeq (Max Int defaultComp) = 0 := collectSeq_of_no_item s _ hnil
  have hsum : s.collectSeq (Sum Int) = 0 := collectSeq_of_no_item s _ hnil
  refine ⟨fun h => ⟨?_, ?_, ?_, ?_, ?_⟩, ?_, ⟨hmin, hmax, hsum, ?_, ?_⟩, ⟨?_, ?_, ?_, ?_, ?_⟩⟩
  · rw [Ctream.min, collect_eq_collectSeq_of_lawful s _ Min_lawful h, hmin]
  · rw [Ctream.max, collect_eq_collectSeq_of_lawful s _ Max_lawful h, hmax]
  · rw [Ctream.sum, collect_eq_collectSeq_of_lawful s _ (Sum_lawful Int) h, hsum]
  · rw [Ctream.toList, collect_ToList, hnil]
  · rw [collect_ToVector, hnil]
  · rw [toVector_eq s hc hhc, hnil]
  · rw [collectSeq_ToList, hnil]
  · rw [collectSeq_ToVector, hnil]
  · rw [collectPar_eq_collectSeq_of_lawful s _ Min_lawful k hk', hmin]
  · rw [collectPar_eq_collectSeq_of_lawful s _ Max_lawful k hk', hmax]
  · rw [collectPar_eq_collectSeq_of_lawful s _ (Sum_lawful Int) k hk', hsum]
  · rw [collectPar_ToList s k hk', hnil]
  · rw [collectPar_ToVector s _ k hk', hnil]

/-- Witness of C9: four positive integers, all dropped by a filter for negatives. -/
theorem C9_empty_stream_witness :
    2 ≤ 2 ∧ 0 < 1
    ∧ (∀ i, i < ((toCtream ([4, 8, 15, 16] : List Int)).filter (fun x => decide (x < 0))).m_containerSize →
        ((toCtream ([4, 8, 15, 16] : List Int)).filter (fun x => decide (x < 0))).computeItem i = none)
    ∧ ((toCtream ([4, 8, 15, 16] : List Int)).filter (fun x => decide (x < 0))).collectPar
        (Min Int defaultComp) 2 = 0
    ∧ ((toCtream ([4, 8, 15, 16] : List Int)).filter (fun x => decide (x < 0))).toVector 1 = some []
    ∧ (toCtream ([] : List Int)).collectSeq (Max Int defaultComp) = 0 :=
  have hempty : ∀ i, i < ((toCtream ([4, 8, 15, 16] : List Int)).filter
      (fun x => decide (x < 0))).m_containerSize →
      ((toCtream ([4, 8, 15, 16] : List Int)).filter (fun x => decide (x < 0))).computeItem i = none := by
    decide
  have h := C9_empty_stream ((toCtream ([4, 8, 15, 16] : List Int)).filter (fun x => decide (x < 0)))
    0 2 1 (by decide) (by decide) hempty
  ⟨by decide, by decide, hempty, h.2.2.2.1, h.2.1, by decide⟩

/-- C10: for every `n` the sum of the stream over `[1, 2, ..., n]` is `n(n+1)/2`,
for every hardware concurrency, on the sequential path and on the parallel path
with any `k ≥ 2` workers, in exact integer arithmetic; for `n = 10000` it is
`50005000`. -/
theorem C10_sum_one_to_n (n k hc : Nat) (hk : 2 ≤ k) :
    (toCtream (oneToN n)).sum hc = (n : Int) * ((n : Int) + 1) / 2
    ∧ (toCtream (oneToN n)).collectSeq (Sum Int) = (n : Int) * ((n : Int) + 1) / 2
    ∧ (toCtream (oneToN n)).collectPar (Sum Int) k = (n : Int) * ((n : Int) + 1) / 2
    ∧ (toCtream (oneToN 10000)).sum hc = 50005000
    ∧ (toCtream (oneToN 10000)).collectPar (Sum Int) k = 50005000 := by
  have hk' : 0 < k := by omega
  have hseq : ∀ m : Nat,
      (toCtream (oneToN m)).collectSeq (Sum Int) = (m : Int) * ((m : Int) + 1) / 2 := by
    intro m
    rw [collectSeq_Sum, items_toCtream, sum_oneToN]
  have hbig : (toCtream (oneToN 10000)).collectSeq (Sum Int) = 50005000 := by
    rw [hseq 10000]; norm_num
  refine ⟨?_, hseq n, ?_, ?_, ?_⟩
  · rw [Ctream.sum, collect_eq_collectSeq_of_lawful _ _ (Sum_lawful Int) hc, hseq n]
  · rw [collectPar_eq_collectSeq_of_lawful _ _ (Sum_lawful Int) k hk', hseq n]
  · rw [Ctream.sum, collect_eq_collectSeq_of_lawful _ _ (Sum_lawful Int) hc, hbig]
  · rw [collectPar_eq_collectSeq_of_lawful _ _ (Sum_lawful Int) k hk', hbig]

/-- Witness of C10: `1 + 2 + 3 + 4 + 5 = 15` on two workers. -/
theorem C10_sum_one_to_n_witness :
    2 ≤ 2 ∧ oneToN 5 = [1, 2, 3, 4, 5]
    ∧ (toCtream (oneToN 5)).collectPar (Sum Int) 2 = 15
    ∧ (toCtream (oneToN 5)).sum 1 = ((5 : Nat) : Int) * (((5 : Nat) : Int) + 1) / 2 :=
  ⟨by decide, by decide, by decide, (C10_sum_one_to_n 5 2 1 (by decide)).1⟩

/-- C11: for every integer sequence made of one `3`, one `5`, one `7` and any
number `m` of `1`s, in any arrangement, `product()` is `105` for every hardware
concurrency, on the sequential path and on the parallel path with any `k ≥ 2`
workers: the `1` supplied for each partition and for the combine accumulator leaves
the product unchanged. -/
theorem C11_product_105 (xs : List Int) (m k hc : Nat) (hk : 2 ≤ k)
    (hperm : List.Perm xs (3 :: 5 :: 7 :: List.replicate m 1)) :
    (toCtream xs).product hc = 105
    ∧ (toCtream xs).collectSeq (Product Int) = 105
    ∧ (toCtream xs).collectPar (Product Int) k = 105 := by
  have hprod : xs.prod = 105 := by
    rw [hperm.prod_eq]
    simp
  have hseq : (toCtream xs).collectSeq (Product Int) = 105 := by
    rw [collectSeq_Product, items_toCtream, hprod]
  refine ⟨?_, hseq, ?_⟩
  · rw [Ctream.product, collect_eq_collectSeq_of_lawful _ _ (Product_lawful Int) hc, hseq]
  · rw [collectPar_eq_collectSeq_of_lawful _ _ (Product_lawful Int) k (by omega), hseq]

/-- Witness of C11: the three factors spread among four `1`s, three workers. -/
theorem C11_product_105_witness :
    2 ≤ 3
    ∧ List.Perm ([1, 7, 1, 1, 3, 1, 5] : List Int) (3 :: 5 :: 7 :: List.replicate 4 1)
    ∧ chunks (toCtream ([1, 7, 1, 1, 3, 1, 5] : List Int)) (Product Int) 3 = [7, 1, 15]
    ∧ (toCtream ([1, 7, 1, 1, 3, 1, 5] : List Int)).collectPar (Product Int) 3 = 105 :=
  ⟨by decide, by decide, by decide,
   (C11_product_105 [1, 7, 1, 1, 3, 1, 5] 4 3 1 (by decide) (by decide)).2.2⟩

/-- C12: for every sequence `xs`, mapper `f` and collector `c`, collecting
`stream(xs).map(f)` gives what collecting the stream of `[f(x0), ..., f(xn-1)]`
gives, on the sequential path, on the parallel path with any number of workers and
through `collect`; so `map(f).sum()` is the sum of `f(x)` over `xs`, and the sum of
the squares of `1..n` is `n(n+1)(2n+1)/6`. -/
theorem C12_map_collect {H A R : Type} (xs : List H) (f : H → H) (c : Collector H A R)
    (ys : List Int) (g : Int → Int) (n k hc : Nat) :
    ((toCtream xs).map f).collect c hc = (toCtream (xs.map f)).collect c hc
    ∧ ((toCtream xs).map f).collectSeq c = (toCtream (xs.map f)).collectSeq c
    ∧ ((toCtream xs).map f).collectPar c k = (toCtream (xs.map f)).collectPar c k
    ∧ ((toCtream ys).map g).sum hc = (ys.map g).sum
    ∧ ((toCtream (oneToN n)).map (fun i => i * i)).sum hc
        = (n : Int) * ((n : Int) + 1) * (2 * (n : Int) + 1) / 6 := by
  have hitem : ∀ (H' : Type) (zs : List H') (h : H' → H') (i : Nat),
      ((toCtream zs).map h).computeItem i = (toCtream (zs.map h)).computeItem i := by
    intro H' zs h i
    rw [Ctream.map, computeItem_internalCtor, computeItem_toCtream, computeItem_toCtream,
      List.getElem?_map]
    cases zs[i]? <;> rfl
  have hsize : ∀ (H' : Type) (zs : List H') (h : H' → H'),
      ((toCtream zs).map h).m_containerSize = (toCtream (zs.map h)).m_containerSize := by
    intro H' zs h
    simp [Ctream.map, internalCtor, toCtream]
  have hcong := collect_congr _ _ c (hsize H xs f) (hitem H xs f)
  have hsum : ∀ (zs : List Int) (h : Int → Int),
      ((toCtream zs).map h).sum hc = (zs.map h).sum := by
    intro zs h
    rw [Ctream.sum, (collect_congr _ _ _ (hsize Int zs h) (hitem Int zs h)).2.2 hc,
      collect_eq_collectSeq_of_lawful _ _ (Sum_lawful Int) hc, collectSeq_Sum, items_toCtream]
  refine ⟨hcong.2.2 hc, hcong.1, hcong.2.1 k, hsum ys g, ?_⟩
  rw [hsum, sum_squares]

/-- C13: for every sequence `xs` and extractor `g`, `stream(xs).extract(g).toList()`
is `[g(x0), ..., g(xn-1)]` in source order, for every hardware concurrency, on the
sequential path and on the parallel path with any `k ≥ 2` workers; the ages of the
three persons of the test are `[51, 10, 18]`. -/
theorem C13_extract_toList {H : Type} (xs : List H) (g : H → H) (k hc : Nat) (hk : 2 ≤ k) :
    ((toCtream xs).extract g).toList hc = xs.map g
    ∧ ((toCtream xs).extract g).collectSeq (ToList H) = xs.map g
    ∧ ((toCtream xs).extract g).collectPar (ToList H) k = xs.map g
    ∧ ((toCtream persons).extract TestValue.age).toList hc
        = [TestValue.int 51, TestValue.int 10, TestValue.int 18] := by
  have hitems : ∀ (H' : Type) (zs : List H') (h : H' → H'),
      items ((toCtream zs).extract h) 0 ((toCtream zs).extract h).m_containerSize
        = zs.map h := by
    intro H' zs h
    rw [items_of_vector ((toCtream zs).extract h) zs rfl rfl, ← List.filterMap_eq_map]
    congr 1
  refine ⟨?_, ?_, ?_, ?_⟩
  · rw [Ctream.toList, collect_ToList, hitems]
  · rw [collectSeq_ToList, hitems]
  · rw [collectPar_ToList _ _ (by omega), hitems]
  · rw [Ctream.toList, collect_ToList, hitems]
    rfl

/-- Witness of C13: the three persons of the test on two workers. -/
theorem C13_extract_toList_witness :
    2 ≤ 2
    ∧ ((toCtream persons).extract TestValue.age).collectPar (ToList TestValue) 2
        = [TestValue.int 51, TestValue.int 10, TestValue.int 18] :=
  ⟨by decide, (C13_extract_toList persons TestValue.age 2 1 (by decide)).2.2.1⟩

/-- C14: `map<T>()` on a stream whose elements already have type `T` (the
constructor is the copy constructor, the identity on values) reproduces the
element sequence: every collector, and `toVector()`, give the same result on
`s.map<T>()` as on `s`, also after any number `n` of applications; over a vector
`xs` the collected vector is `xs`. -/
theorem C14_mapCast_identity {H A R : Type} (s : Ctream H) (c : Collector H A R)
    (xs : List H) (m_chunkSize n k hc : Nat) :
    (s.mapCast id).collect c hc = s.collect c hc
    ∧ (s.mapCast id).collectSeq c = s.collectSeq c
    ∧ (s.mapCast id).collectPar c k = s.collectPar c k
    ∧ (s.mapCast id).toVector hc = s.toVector hc
    ∧ (Nat.iterate (fun t => t.mapCast id) n s).collect c hc = s.collect c hc
    ∧ (Nat.iterate (fun t => t.mapCast id) n s).toVector hc = s.toVector hc
    ∧ ((toCtream xs).mapCast id).collect (ToVector H m_chunkSize) hc = xs
    ∧ (Nat.iterate (fun t => t.mapCast id) n (toCtream xs)).collect
        (ToVector H m_chunkSize) hc = xs := by
  have hiter : ∀ j : Nat,
      (Nat.iterate (fun t => t.mapCast id) j s).m_containerSize = s.m_containerSize
      ∧ ∀ i, (Nat.iterate (fun t => t.mapCast id) j s).computeItem i = s.computeItem i := by
    intro j
    induction j with
    | zero => exact ⟨rfl, fun _ => rfl⟩
    | succ j ih =>
      rw [Function.iterate_succ_apply']
      exact ⟨ih.1, fun i => by rw [computeItem_mapCast_id, ih.2]⟩
  have h1 := collect_congr (s.mapCast id) s c rfl (computeItem_mapCast_id s)
  have hn := collect_congr _ s c (hiter n).1 (hiter n).2
  have hxs : (toCtream xs).collect (ToVector H m_chunkSize) hc = xs := by
    rw [collect_ToVector, items_toCtream]
  refine ⟨h1.2.2 hc, h1.1, h1.2.1 k,
    toVector_congr (s.mapCast id) s rfl (computeItem_mapCast_id s) hc,
    hn.2.2 hc, toVector_congr _ s (hiter n).1 (hiter n).2 hc, ?_, ?_⟩
  · rw [(collect_congr ((toCtream xs).mapCast id) (toCtream xs) _ rfl
      (computeItem_mapCast_id _)).2.2 hc, hxs]
  · have hx : ∀ j : Nat,
        (Nat.iterate (fun t => t.mapCast id) j (toCtream xs)).m_containerSize
          = (toCtream xs).m_containerSize
        ∧ ∀ i, (Nat.iterate (fun t => t.mapCast id) j (toCtream xs)).computeItem i
            = (toCtream xs).computeItem i := by
      intro j
      induction j with
      | zero => exact ⟨rfl, fun _ => rfl⟩
      | succ j ih =>
        rw [Function.iterate_succ_apply']
        exact ⟨ih.1, fun i => by rw [computeItem_mapCast_id, ih.2]⟩
    rw [(collect_congr _ (toCtream xs) _ (hx n).1 (hx n).2).2.2 hc, hxs]

/-- C15: `computeItem(i)` is the left-to-right bind of the registered steps applied
to the source element at `i`; it starts from that element; when a step returns
null after the steps before it succeeded, the result is absent whatever steps
follow, and those steps are not run (the arena is the one the null step left);
when no step returns null the result is the output of the last step. -/
theorem C15_computeItem_bind {H : Type} (s : Ctream H) (i : Nat) :
    s.computeItem i = specComputeItem s.m_sourceData s.m_pipeline i
    ∧ (∀ x, s.m_sourceData i = some x → s.computeItem i = runSteps s.m_pipeline x)
    ∧ (∀ pre rest step x y, s.m_pipeline = pre ++ step :: rest → s.m_sourceData i = some x →
        runSteps pre x = some y → step y = none → s.computeItem i = none)
    ∧ (∀ pre step x y, s.m_pipeline = pre ++ [step] → s.m_sourceData i = some x →
        runSteps pre x = some y → s.computeItem i = step y)
    ∧ (∀ (pre rest : List (ArenaStep H)) (step : ArenaStep H) (x y : H)
        (arena a₁ a₂ : BasicArena),
        runStepsIn pre x arena = (some y, a₁) → step y a₁ = (none, a₂) →
        runStepsIn (pre ++ step :: rest) x arena = (none, a₂)) := by
  refine ⟨computeItem_eq_spec s i, ?_, ?_, ?_, ?_⟩
  · intro x hx
    simp only [computeItem, hx]
  · intro pre rest step x y hp hx hpre hstep
    simp only [computeItem, hx, hp, runSteps_append, hpre, Option.some_bind, runSteps, hstep]
  · intro pre step x y hp hx hpre
    simp only [computeItem, hx, hp, runSteps_append, hpre, Option.some_bind,
      runSteps_singleton]
  · intro pre rest step x y arena a₁ a₂ hpre hstep
    exact runStepsIn_null pre rest step x y arena a₁ a₂ hpre hstep

/-- Witness of C15: a mapper, a filter that rejects, and a mapper that is not
reached; index 1 of `[4, 9]` is absent and the arena holds one object only. -/
theorem C15_computeItem_bind_witness :
    ((((toCtream ([4, 9] : List Int)).map (fun x => x + 1)).filter
        (fun x => decide (x < 8))).map (fun x => x * 2)).computeItem 1 = none
    ∧ ((((toCtream ([4, 9] : List Int)).map (fun x => x + 1)).filter
        (fun x => decide (x < 8))).map (fun x => x * 2)).computeItem 0 = some 10
    ∧ runStepsIn [mapStep (fun x => x + 1) 8 0, filterStep (fun x => decide (x < 8)),
          mapStep (fun x => x * 2) 8 0] (9 : Int) BasicArena.empty
        = (none, ⟨[⟨0, 8, 65536⟩], [⟨⟨0, 0⟩, 0⟩]⟩) :=
  have h := C15_computeItem_bind
    ((((toCtream ([4, 9] : List Int)).map (fun x => x + 1)).filter
      (fun x => decide (x < 8))).map (fun x => x * 2)) 1
  ⟨h.2.2.1 [fun x => some (x + 1)] [fun x => some (x * 2)]
      (fun x => if decide (x < 8) = true then some x else none) 9 10 rfl rfl rfl rfl,
   by decide,
   h.2.2.2.2 [mapStep (fun x => x + 1) 8 0] [mapStep (fun x => x * 2) 8 0]
      (filterStep (fun x => decide (x < 8))) 9 10 BasicArena.empty
      ⟨[⟨0, 8, 65536⟩], [⟨⟨0, 0⟩, 0⟩]⟩ ⟨[⟨0, 8, 65536⟩], [⟨⟨0, 0⟩, 0⟩]⟩ (by decide) (by decide)⟩

/-- C16: each of `filter`, `extract`, `map(mapper)` and `map()` returns a stream whose
step list is the receiver's followed by the one new step and whose arena,
container size and source accessor are the receiver's; the new stream computes the
receiver's item and then applies the new step. The receiver is a value that the
methods only read. -/
theorem C16_transformations_frame {H : Type} (s : Ctream H) (p : H → Bool)
    (extractor mapper construct : H → H) :
    ((s.filter p).m_pipeline = s.m_pipeline ++ [fun elt => if p elt then some elt else none]
      ∧ (s.filter p).m_arena = s.m_arena
      ∧ (s.filter p).m_containerSize = s.m_containerSize
      ∧ (s.filter p).m_sourceData = s.m_sourceData
      ∧ ∀ i, (s.filter p).computeItem i
          = (s.computeItem i).bind (fun elt => if p elt then some elt else none))
    ∧ ((s.extract extractor).m_pipeline = s.m_pipeline ++ [fun elt => some (extractor elt)]
      ∧ (s.extract extractor).m_arena = s.m_arena
      ∧ (s.extract extractor).m_containerSize = s.m_containerSize
      ∧ (s.extract extractor).m_sourceData = s.m_sourceData
      ∧ ∀ i, (s.extract extractor).computeItem i = (s.computeItem i).map extractor)
    ∧ ((s.map mapper).m_pipeline = s.m_pipeline ++ [fun elt => some (mapper elt)]
      ∧ (s.map mapper).m_arena = s.m_arena
      ∧ (s.map mapper).m_containerSize = s.m_containerSize
      ∧ (s.map mapper).m_sourceData = s.m_sourceData
      ∧ ∀ i, (s.map mapper).computeItem i = (s.computeItem i).map mapper)
    ∧ ((s.mapCast construct).m_pipeline = s.m_pipeline ++ [fun elt => some (construct elt)]
      ∧ (s.mapCast construct).m_arena = s.m_arena
      ∧ (s.mapCast construct).m_containerSize = s.m_containerSize
      ∧ (s.mapCast construct).m_sourceData = s.m_sourceData
      ∧ ∀ i, (s.mapCast construct).computeItem i = (s.computeItem i).map construct) := by
  refine ⟨⟨rfl, rfl, rfl, rfl, ?_⟩, ⟨rfl, rfl, rfl, rfl, ?_⟩, ⟨rfl, rfl, rfl, rfl, ?_⟩,
    ⟨rfl, rfl, rfl, rfl, ?_⟩⟩
  · intro i
    rw [Ctream.filter, computeItem_internalCtor]
  · intro i
    rw [Ctream.extract, computeItem_internalCtor]
    cases s.computeItem i <;> rfl
  · intro i
    rw [Ctream.map, computeItem_internalCtor]
    cases s.computeItem i <;> rfl
  · intro i
    rw [Ctream.mapCast, computeItem_internalCtor]
    cases s.computeItem i <;> rfl

/-- C17: evaluating a pipeline made only of `extract` steps never touches the arena:
after one `computeItem(i)`, and after any sequence of `computeItem` calls (every
index, in any order, as the sequential loop or the workers of `collect` make them),
the arena (pages, cursors, destructor log) is the one before, and the handles are
those of the stream built by the `extract` calls; a `map` step, by contrast,
allocates. -/
theorem C17_extract_no_allocation {H : Type} (s : Ctream H) (gs : List (H → H))
    (idxs : List Nat) (i : Nat) (arena : BasicArena) :
    (computeItemIn s.m_sourceData (gs.map extractStep) i arena).2 = arena
    ∧ (computeItemsIn s.m_sourceData (gs.map extractStep) idxs arena).2 = arena
    ∧ (computeItemsIn s.m_sourceData (gs.map extractStep)
        (List.range' 0 s.m_containerSize) arena).2.m_pages = arena.m_pages
    ∧ (computeItemsIn s.m_sourceData (gs.map extractStep)
        (List.range' 0 s.m_containerSize) arena).2.m_objects = arena.m_objects
    ∧ (s.m_pipeline = [] →
        (computeItemIn s.m_sourceData (gs.map extractStep) i arena).1
          = (gs.foldl Ctream.extract s).computeItem i)
    ∧ (computeItemIn (fun _ => some (1 : Int)) [mapStep id 8 0] 0 BasicArena.empty).2
        ≠ BasicArena.empty := by
  refine ⟨?_, ?_, ?_, ?_, ?_, by decide⟩
  · rw [computeItemIn_extract]
  · rw [computeItemsIn_extract]
  · rw [computeItemsIn_extract]
  · rw [computeItemsIn_extract]
  · intro hnil
    obtain ⟨h₁, h₂, _⟩ := foldl_extract_pipeline gs s
    rw [computeItemIn_extract, computeItem_eq_bind, h₁, h₂, hnil, List.nil_append]

/-- Witness of C17: two extractors over three elements, in an arena that already
holds one object. -/
theorem C17_extract_no_allocation_witness :
    (toCtream ([10, 20, 30] : List Int)).m_pipeline = []
    ∧ computeItemsIn (toCtream ([10, 20, 30] : List Int)).m_sourceData
        [extractStep (fun x => x + 1), extractStep (fun x => x * 2)] [2, 0, 1, 2]
        ⟨[⟨0, 8, 65536⟩], [⟨⟨0, 0⟩, 0⟩]⟩
      = ([some 62, some 22, some 42, some 62], ⟨[⟨0, 8, 65536⟩], [⟨⟨0, 0⟩, 0⟩]⟩)
    ∧ (computeItemIn (toCtream ([10, 20, 30] : List Int)).m_sourceData
        ([fun x => x + 1, fun x => x * 2].map extractStep) 1 BasicArena.empty).1
      = ([fun x => x + 1, fun x => x * 2].foldl Ctream.extract
          (toCtream ([10, 20, 30] : List Int))).computeItem 1 :=
  ⟨rfl, by decide,
   (C17_extract_no_allocation (toCtream ([10, 20, 30] : List Int))
      [fun x => x + 1, fun x => x * 2] [] 1 BasicArena.empty).2.2.2.2.1 rfl⟩

/-- C18: in the arena reached from the empty one by any sequence of `allocate`
calls (sizes in the range of `size_t`), the regions handed out are pairwise without
a common byte; after further calls the regions handed out before are the same
(same block, same offset), none of their bytes belongs to a later region, and the
pages they lie in keep their position, block and capacity. -/
theorem C18_regions_disjoint (sizes more : List Nat) (hsizes : ∀ sz ∈ sizes, sz < 2 ^ 64)
    (hmore : ∀ sz ∈ more, sz < 2 ^ 64) :
    List.Pairwise Region.noCommonByte (allocateAll BasicArena.empty sizes).1
    ∧ (allocateAll BasicArena.empty (sizes ++ more)).1
        = (allocateAll BasicArena.empty sizes).1
          ++ (allocateAll (allocateAll BasicArena.empty sizes).2 more).1
    ∧ (∀ r ∈ (allocateAll BasicArena.empty sizes).1,
        ∀ r' ∈ (allocateAll (allocateAll BasicArena.empty sizes).2 more).1,
          r.noCommonByte r')
    ∧ (allocateAll BasicArena.empty sizes).2.GrowsTo
        (allocateAll BasicArena.empty (sizes ++ more)).2
    ∧ (∀ r ∈ (allocateAll BasicArena.empty sizes).1, ∃ p : Page,
        (allocateAll BasicArena.empty sizes).2.m_pages[r.addr.block]? = some p
        ∧ p.data = r.addr.block ∧ r.addr.offset + r.size ≤ p.size) := by
  have hall : ∀ sz ∈ sizes ++ more, sz < 2 ^ 64 := by
    intro sz h
    rcases List.mem_append.1 h with h | h
    · exact hsizes sz h
    · exact hmore sz h
  obtain ⟨hok, hpair, _, _, hin⟩ :=
    allocateAll_spec sizes BasicArena.empty BasicArena.empty_ok hsizes
  obtain ⟨_, hpair', _, _, _⟩ :=
    allocateAll_spec (sizes ++ more) BasicArena.empty BasicArena.empty_ok hall
  obtain ⟨_, _, _, hgrow, _⟩ :=
    allocateAll_spec more (allocateAll BasicArena.empty sizes).2 hok hmore
  rw [allocateAll_append] at hpair' ⊢
  refine ⟨hpair, rfl, ?_, hgrow, ?_⟩
  · intro r hr r' hr'
    exact (List.pairwise_append.1 hpair').2.2 r hr r' hr'
  · intro r hr
    obtain ⟨p, hp, hle, hcap⟩ := hin r hr
    exact ⟨p, hp, (hok _ p hp).1, by omega⟩

/-- Witness of C18: six requests (one empty, one of a whole page, one larger than
a page), then one more; the last request of the six goes back to the first page. -/
theorem C18_regions_disjoint_witness :
    (∀ sz ∈ [8, 0, 65536, 65530, 100000, 16], sz < 2 ^ 64)
    ∧ (∀ sz ∈ [24], sz < 2 ^ 64)
    ∧ (allocateAll BasicArena.empty [8, 0, 65536, 65530, 100000, 16]).1
        = [⟨⟨0, 0⟩, 8⟩, ⟨⟨0, 8⟩, 0⟩, ⟨⟨1, 0⟩, 65536⟩, ⟨⟨2, 0⟩, 65530⟩, ⟨⟨3, 0⟩, 100000⟩,
            ⟨⟨0, 8⟩, 16⟩]
    ∧ (allocateAll BasicArena.empty [8, 0, 65536, 65530, 100000, 16]).2.m_pages
        = [⟨0, 24, 65536⟩, ⟨1, 65536, 65536⟩, ⟨2, 65530, 65536⟩, ⟨3, 100000, 100000⟩]
    ∧ List.Pairwise Region.noCommonByte
        (allocateAll BasicArena.empty [8, 0, 65536, 65530, 100000, 16]).1 :=
  ⟨by decide, by decide, by decide, by decide,
   (C18_regions_disjoint [8, 0, 65536, 65530, 100000, 16] [24] (by decide) (by decide)).1⟩

/-- C19: when no page of the arena has `availableSizeOnPage(p) > size`,
`allocate(size)` appends one page whose capacity is `max(size, PAGE_SIZE)`, with
`PAGE_SIZE = 65536`, and whose cursor starts at `0`; the region returned is at
offset `0` of that page, whose cursor is then `size`; the pages present before are
unchanged. -/
theorem C19_new_page (a : BasicArena) (size : Nat) (hsize : size < 2 ^ 64)
    (hfull : ∀ p ∈ a.m_pages, ¬ toSizeT (BasicArena.availableSizeOnPage p) > size) :
    (a.firstAvailablePage size).1.m_pages
        = a.m_pages ++ [⟨a.m_pages.length, 0, Nat.max size fine_tuning.PAGE_SIZE⟩]
    ∧ (a.firstAvailablePage size).2 = a.m_pages.length
    ∧ (a.allocate size).1 = ⟨a.m_pages.length, 0⟩
    ∧ (a.allocate size).2.m_pages
        = a.m_pages ++ [⟨a.m_pages.length, size, Nat.max size fine_tuning.PAGE_SIZE⟩]
    ∧ (a.allocate size).2.m_objects = a.m_objects
    ∧ fine_tuning.PAGE_SIZE = 65536 := by
  have hidx := (BasicArena.firstAvailableIndex_none size a.m_pages).2 hfull
  have hmax : (if size > fine_tuning.PAGE_SIZE then size else fine_tuning.PAGE_SIZE)
      = Nat.max size fine_tuning.PAGE_SIZE := by
    split
    · exact (Nat.max_eq_left (by omega)).symm
    · exact (Nat.max_eq_right (by omega)).symm
  rw [BasicArena.allocate_of_none a size hidx, Nat.mod_eq_of_lt hsize, hmax]
  refine ⟨?_, ?_, rfl, rfl, rfl, rfl⟩
  · simp only [BasicArena.firstAvailablePage, hidx, BasicArena.initPage, hmax]
  · simp only [BasicArena.firstAvailablePage, hidx]

/-- Witness of C19: a request of 100 bytes on a full page appends a page of 65536
bytes, a request of 70000 bytes appends a page of 70000 bytes. -/
theorem C19_new_page_witness :
    (100 < 2 ^ 64)
    ∧ (∀ p ∈ (⟨[⟨0, 65500, 65536⟩], []⟩ : BasicArena).m_pages,
        ¬ toSizeT (BasicArena.availableSizeOnPage p) > 100)
    ∧ (BasicArena.allocate ⟨[⟨0, 65500, 65536⟩], []⟩ 100).2.m_pages
        = [⟨0, 65500, 65536⟩, ⟨1, 100, 65536⟩]
    ∧ (BasicArena.allocate ⟨[⟨0, 65500, 65536⟩], []⟩ 70000)
        = (⟨1, 0⟩, ⟨[⟨0, 65500, 65536⟩, ⟨1, 70000, 70000⟩], []⟩) :=
  ⟨by decide, by decide,
   (C19_new_page ⟨[⟨0, 65500, 65536⟩], []⟩ 100 (by decide) (by decide)).2.2.2.1,
   by decide⟩

/-- C20, for the part of the list constructor that is well formed: its body fills
the index table with exactly `n` references, the `i`-th one to the `i`-th element
of the list in iteration order, so that indexing the table at `i` gives what the
accessor of the stream over a vector with the same elements gives. (The accessor
the constructor installs is written `m_elementsWithIndex.at(i)` on a pointer and
has no translation.) -/
theorem C20_index_table {H : Type} (values : List H) :
    (indexTable values).length = values.length
    ∧ indexTable values = values
    ∧ (∀ i : Nat, (indexTable values)[i]? = values[i]?)
    ∧ (∀ i : Nat, (indexTable values)[i]? = (toCtream values).m_sourceData i)
    ∧ indexTable ([7, 8, 9] : List Int) = [7, 8, 9] := by
  have h : indexTable values = values := by
    simp [indexTable, collectors.reserve, foldl_emplace_back]
  exact ⟨by rw [h], h, fun i => by rw [h], fun i => by rw [h]; rfl, by decide⟩

/-- C22, at the failing input and beside it: when `hardware_concurrency()` is `0`,
`toVector()` divides the container size by `2 * 0` and has no result, although
`collect(ToVector)` with no pre-sizing returns the items of the stream for that
same value; for every hardware concurrency `hc + 1 ≥ 1` the division is defined and
`toVector()` returns what `collect(ToVector)` with no pre-sizing returns. -/
theorem C22_toVector_division {H : Type} (s : Ctream H) (hc : Nat) :
    s.toVector 0 = none
    ∧ s.collect (ToVector H 0) 0 = items s 0 s.m_containerSize
    ∧ s.toVector (hc + 1) = some (s.collect (ToVector H 0) (hc + 1))
    ∧ (toCtream ([7, 8, 9] : List Int)).toVector 0 = none
    ∧ (toCtream ([7, 8, 9] : List Int)).collect (ToVector Int 0) 0 = [7, 8, 9] := by
  refine ⟨rfl, collect_ToVector s 0 0, ?_, rfl, by decide⟩
  rw [toVector_eq s (hc + 1) (by omega), collect_ToVector]

/-- C25: for every collector with `combine(a, supply()) = a`,
`combine(supply(), b) = b` and
`combine(a, accumulate(b, x)) = accumulate(combine(a, b), x)`, every stream (any
source, any pipeline) and every thread count `k ≥ 2`, the parallel path of
`collect` returns the result of the sequential path, and so does `collect` for
every hardware concurrency. -/
theorem C25_lawful_parallel_eq_sequential {H A R : Type} (c : Collector H A R)
    (s : Ctream H) (k : Nat) (hk : 2 ≤ k)
    (h₁ : ∀ a, c.combine a c.supply = a)
    (_h₂ : ∀ b, c.combine c.supply b = b)
    (h₃ : ∀ a b x, c.combine a (c.accumulate b x) = c.accumulate (c.combine a b) x) :
    s.collectPar c k = s.collectSeq c ∧ ∀ hc, s.collect c hc = s.collectSeq c := by
  have hlaw : c.Lawful (fun _ => True) :=
    ⟨trivial, fun _ _ _ => trivial, fun a _ => h₁ a, fun a b x _ _ => h₃ a b x⟩
  exact ⟨collectPar_eq_collectSeq_of_lawful s c hlaw k (by omega),
    fun hc => collect_eq_collectSeq_of_lawful s c hlaw hc⟩

/-- Witness of C25: a collector that counts the present items and adds their
values, on six integers of which a filter keeps four, with three workers. -/
theorem C25_lawful_parallel_eq_sequential_witness :
    2 ≤ 3
    ∧ ((toCtream ([5, -2, 7, 0, 9, 4] : List Int)).filter (fun x => decide (0 < x))).collectPar
        (⟨(0, 0), fun a x => (a.1 + 1, a.2 + x), fun a b => (a.1 + b.1, a.2 + b.2), id⟩ :
          Collector Int (Nat × Int) (Nat × Int)) 3 = (4, 25)
    ∧ ((toCtream ([5, -2, 7, 0, 9, 4] : List Int)).filter (fun x => decide (0 < x))).collectPar
        (⟨(0, 0), fun a x => (a.1 + 1, a.2 + x), fun a b => (a.1 + b.1, a.2 + b.2), id⟩ :
          Collector Int (Nat × Int) (Nat × Int)) 3
      = ((toCtream ([5, -2, 7, 0, 9, 4] : List Int)).filter (fun x => decide (0 < x))).collectSeq
        (⟨(0, 0), fun a x => (a.1 + 1, a.2 + x), fun a b => (a.1 + b.1, a.2 + b.2), id⟩ :
          Collector Int (Nat × Int) (Nat × Int)) :=
  ⟨by decide, by decide,
   (C25_lawful_parallel_eq_sequential
      (⟨(0, 0), fun a x => (a.1 + 1, a.2 + x), fun a b => (a.1 + b.1, a.2 + b.2), id⟩ :
        Collector Int (Nat × Int) (Nat × Int))
      ((toCtream ([5, -2, 7, 0, 9, 4] : List Int)).filter (fun x => decide (0 < x))) 3
      (by decide)
      (fun a => by simp)
      (fun b => by simp)
      (fun a b x => by simp only [Prod.mk.injEq]; constructor <;> omega)).1⟩

/-- C27: for every stream of strings (any source, any pipeline), `concat()` returns
the text made of the present elements' characters in source index order, for every
hardware concurrency, and the parallel path with any `k ≥ 2` workers (each
partition's buffer appended in partition order) returns the string of the
sequential path; the same holds for `Concat<T>` with any textual form `format`. -/
theorem C27_concat {H : Type} (s : Ctream String) (t : Ctream H) (format : H → String)
    (k hc : Nat) (hk : 2 ≤ k) :
    (s.concat hc).data = ((items s 0 s.m_containerSize).map String.data).flatten
    ∧ s.collectPar (Concat String id) k = s.collectSeq (Concat String id)
    ∧ (s.collectPar (Concat String id) k).data
        = ((items s 0 s.m_containerSize).map String.data).flatten
    ∧ t.collectPar (Concat H format) k = t.collectSeq (Concat H format)
    ∧ (t.collect (Concat H format) hc).data
        = ((items t 0 t.m_containerSize).map (fun x => (format x).data)).flatten
    ∧ s.concat hc = String.join (items s 0 s.m_containerSize)
    ∧ s.collectPar (Concat String id) k = String.join (items s 0 s.m_containerSize) := by
  have hk' : 0 < k := by omega
  have hs := collectSeq_Concat_data s id
  have hpar := collectPar_eq_collectSeq_of_lawful s _ (Concat_lawful String id) k hk'
  have hjoin : s.collectSeq (Concat String id) = String.join (items s 0 s.m_containerSize) := by
    rw [collectSeq_eq]; rfl
  refine ⟨?_, hpar, ?_, ?_, ?_, ?_, hpar.trans hjoin⟩
  rotate_right
  · rw [Ctream.concat, collect_eq_collectSeq_of_lawful s _ (Concat_lawful String id) hc, hjoin]
  · rw [Ctream.concat, collect_eq_collectSeq_of_lawful s _ (Concat_lawful String id) hc, hs]
    rfl
  · rw [hpar, hs]; rfl
  · exact collectPar_eq_collectSeq_of_lawful t _ (Concat_lawful H format) k hk'
  · rw [collect_eq_collectSeq_of_lawful t _ (Concat_lawful H format) hc,
      collectSeq_Concat_data]

/-- Witness of C27: five strings, the empty one dropped by a filter, two workers. -/
theorem C27_concat_witness :
    2 ≤ 2
    ∧ chunks ((toCtream ["ab", "", "c", "de", "f"]).filter (fun x => x != ""))
        (Concat String id) 2 = ["ab", "cdef"]
    ∧ ((toCtream ["ab", "", "c", "de", "f"]).filter (fun x => x != "")).collectPar
        (Concat String id) 2 = "abcdef"
    ∧ ((toCtream ["ab", "", "c", "de", "f"]).filter (fun x => x != "")).collectPar
        (Concat String id) 2
      = ((toCtream ["ab", "", "c", "de", "f"]).filter (fun x => x != "")).collectSeq
        (Concat String id) :=
  ⟨by decide, by decide, by decide,
   (C27_concat ((toCtream ["ab", "", "c", "de", "f"]).filter (fun x => x != ""))
      (toCtream ([] : List Nat)) (fun _ => "") 2 1 (by decide)).2.1⟩

/-- C23 as stated fails: after `allocate(65436)` the only page has exactly 100
bytes left (it is the first page with at least 100 bytes left); `allocate(100)` does
not use it and appends a second page, leaving the 100 bytes as slack. -/
theorem C23_counterexample :
    (allocateAll BasicArena.empty [65436]).2.m_pages = [⟨0, 65436, 65536⟩]
    ∧ specFirstFit 100 (allocateAll BasicArena.empty [65436]).2.m_pages = some 0
    ∧ ((allocateAll BasicArena.empty [65436]).2.allocate 100).1 = ⟨1, 0⟩
    ∧ ((allocateAll BasicArena.empty [65436]).2.allocate 100).1 ≠ ⟨0, 65436⟩
    ∧ ((allocateAll BasicArena.empty [65436]).2.allocate 100).2.m_pages
        = [⟨0, 65436, 65536⟩, ⟨1, 100, 65536⟩] := by
  decide

/-- C23, amended: in every arena reached from the empty one, `allocate(size)` places
the request on the first page, in page-list order, whose remaining capacity
`size - cursor` is strictly greater than the request, at that page's cursor, and
appends a new page only when no page has more remaining capacity than the request;
a page whose remaining capacity equals the request is not used. -/
theorem C23_first_fit_strict (sizes : List Nat) (size : Nat)
    (hsizes : ∀ sz ∈ sizes, sz < 2 ^ 64) (hsize : size < 2 ^ 64) :
    (∀ (i : Nat) (p : Page), (allocateAll BasicArena.empty sizes).2.m_pages[i]? = some p →
        p.size - p.cursor > size →
        (∀ (j : Nat) (q : Page), j < i →
          (allocateAll BasicArena.empty sizes).2.m_pages[j]? = some q →
          ¬ q.size - q.cursor > size) →
        ((allocateAll BasicArena.empty sizes).2.allocate size).1 = ⟨i, p.cursor⟩
        ∧ ((allocateAll BasicArena.empty sizes).2.allocate size).2.m_pages
            = (allocateAll BasicArena.empty sizes).2.m_pages.set i
                ⟨i, p.cursor + size, p.size⟩)
    ∧ ((∀ p ∈ (allocateAll BasicArena.empty sizes).2.m_pages, ¬ p.size - p.cursor > size) →
        ((allocateAll BasicArena.empty sizes).2.allocate size).1
            = ⟨(allocateAll BasicArena.empty sizes).2.m_pages.length, 0⟩
        ∧ ((allocateAll BasicArena.empty sizes).2.allocate size).2.m_pages
            = (allocateAll BasicArena.empty sizes).2.m_pages
              ++ [⟨(allocateAll BasicArena.empty sizes).2.m_pages.length, size,
                    Nat.max size fine_tuning.PAGE_SIZE⟩])
    ∧ (∀ (i : Nat) (p : Page), (allocateAll BasicArena.empty sizes).2.m_pages[i]? = some p →
        p.size - p.cursor = size →
        ((allocateAll BasicArena.empty sizes).2.allocate size).1.block ≠ i) := by
  obtain ⟨hok, _, _, _, _⟩ :=
    allocateAll_spec sizes BasicArena.empty BasicArena.empty_ok hsizes
  generalize (allocateAll BasicArena.empty sizes).2 = a at hok ⊢
  have hav : ∀ (i : Nat) (p : Page), a.m_pages[i]? = some p →
      toSizeT (BasicArena.availableSizeOnPage p) = p.size - p.cursor :=
    fun i p hp => BasicArena.toSizeT_available i p (hok i p hp)
  refine ⟨?_, ?_, ?_⟩
  · intro i p hp hcond hbefore
    have hidx : BasicArena.firstAvailableIndex size a.m_pages = some i := by
      apply BasicArena.firstAvailableIndex_of_first size a.m_pages i p hp
      · rw [hav i p hp]; exact hcond
      · intro j q hj hq
        rw [hav j q hq]; exact hbefore j q hj hq
    obtain ⟨hdata, hle, hlt, _⟩ := hok i p hp
    rw [BasicArena.allocate_of_some a size i p hidx hp, hdata,
      Nat.mod_eq_of_lt (by omega : p.cursor + size < 2 ^ 64)]
    exact ⟨rfl, rfl⟩
  · intro hfull
    have hidx : BasicArena.firstAvailableIndex size a.m_pages = none := by
      rw [BasicArena.firstAvailableIndex_none]
      intro p hp
      obtain ⟨i, hi⟩ := List.getElem?_of_mem hp
      rw [hav i p hi]; exact hfull p hp
    have hmax : (if size > fine_tuning.PAGE_SIZE then size else fine_tuning.PAGE_SIZE)
        = Nat.max size fine_tuning.PAGE_SIZE := by
      split
      · exact (Nat.max_eq_left (by omega)).symm
      · exact (Nat.max_eq_right (by omega)).symm
    rw [BasicArena.allocate_of_none a size hidx, Nat.mod_eq_of_lt hsize, hmax]
    exact ⟨rfl, rfl⟩
  · intro i p hp hexact
    have hilt : i < a.m_pages.length := (List.getElem?_eq_some_iff.1 hp).1
    rcases hidx : BasicArena.firstAvailableIndex size a.m_pages with _ | i'
    · rw [BasicArena.allocate_of_none a size hidx]
      simp only
      omega
    · obtain ⟨p', hp', hcond', _⟩ := BasicArena.firstAvailableIndex_some size a.m_pages i' hidx
      rw [BasicArena.allocate_of_some a size i' p' hidx hp']
      simp only [(hok i' p' hp').1]
      intro heq
      subst heq
      rw [hp] at hp'
      simp only [Option.some.injEq] at hp'
      subst hp'
      rw [hav i' p hp] at hcond'
      omega

/-- Witness of C23 amended: pages with 100, 101 and 50000 bytes left; a request of
100 bytes skips the exact fit and lands on the second page. -/
theorem C23_first_fit_strict_witness :
    (∀ sz ∈ [65436, 65435, 15536, 65435], sz < 2 ^ 64) ∧ 100 < 2 ^ 64
    ∧ (allocateAll BasicArena.empty [65436, 65435, 15536, 65435]).2.m_pages
        = [⟨0, 65436, 65536⟩, ⟨1, 65435, 65536⟩, ⟨2, 15536, 65536⟩, ⟨3, 65435, 65536⟩]
    ∧ ((allocateAll BasicArena.empty [65436, 65435, 15536, 65435]).2.allocate 100).1
        = ⟨1, 65435⟩ :=
  ⟨by decide, by decide, by decide,
   ((C23_first_fit_strict [65436, 65435, 15536, 65435] 100 (by decide) (by decide)).1
      1 ⟨1, 65435, 65536⟩ (by decide) (by decide)
      (by
        intro j q hj hq
        have hj0 : j = 0 := by omega
        subst hj0
        have hpages : (allocateAll BasicArena.empty [65436, 65435, 15536, 65435]).2.m_pages
            = [⟨0, 65436, 65536⟩, ⟨1, 65435, 65536⟩, ⟨2, 15536, 65536⟩, ⟨3, 65435, 65536⟩] := by
          decide
        rw [hpages] at hq
        simp only [List.getElem?_cons_zero, Option.some.injEq] at hq
        subst hq
        decide)).1⟩

/-- C24: in every arena reached from the empty one by `allocate` calls of any sizes
(any `size_t`, `0` and sizes above `PAGE_SIZE` included), every page has
`cursor ≤ size`; `availableSizeOnPage` is `size - cursor`, never negative and within
the range of `long`, so its conversion to `size_t` for the comparison with the
request keeps its value; and every region handed out, `[offset, offset + size)`,
lies inside its page. -/
theorem C24_cursor_within_page (sizes : List Nat) (hsizes : ∀ sz ∈ sizes, sz < 2 ^ 64) :
    (∀ p ∈ (allocateAll BasicArena.empty sizes).2.m_pages,
        p.cursor ≤ p.size
        ∧ 0 ≤ BasicArena.availableSizeOnPage p
        ∧ BasicArena.availableSizeOnPage p < 2 ^ 63
        ∧ BasicArena.availableSizeOnPage p = ((p.size - p.cursor : Nat) : Int)
        ∧ ((toSizeT (BasicArena.availableSizeOnPage p) : Nat) : Int)
            = BasicArena.availableSizeOnPage p
        ∧ ∀ request : Nat, toSizeT (BasicArena.availableSizeOnPage p) > request
            ↔ BasicArena.availableSizeOnPage p > (request : Int))
    ∧ (∀ r ∈ (allocateAll BasicArena.empty sizes).1, ∃ p : Page,
        (allocateAll BasicArena.empty sizes).2.m_pages[r.addr.block]? = some p
        ∧ p.data = r.addr.block ∧ r.addr.offset + r.size ≤ p.cursor
        ∧ r.addr.offset + r.size ≤ p.size) := by
  obtain ⟨hok, _, _, _, hin⟩ :=
    allocateAll_spec sizes BasicArena.empty BasicArena.empty_ok hsizes
  refine ⟨?_, ?_⟩
  · intro p hp
    obtain ⟨i, hi⟩ := List.getElem?_of_mem hp
    have hpok := hok i p hi
    obtain ⟨heq, hnn, hlt⟩ := BasicArena.available_eq i p hpok
    have hconv := BasicArena.toSizeT_available i p hpok
    refine ⟨hpok.2.1, hnn, hlt, heq, ?_, ?_⟩
    · rw [hconv, heq]
    · intro request
      rw [hconv, heq]
      omega
  · intro r hr
    obtain ⟨p, hp, hle, hcap⟩ := hin r hr
    exact ⟨p, hp, (hok _ p hp).1, hle, by omega⟩

/-- Witness of C24: requests of 0 bytes, of a whole page, of 8 bytes and of more
than a page. -/
theorem C24_cursor_within_page_witness :
    (∀ sz ∈ [0, 65536, 8, 100000], sz < 2 ^ 64)
    ∧ (allocateAll BasicArena.empty [0, 65536, 8, 100000]).2.m_pages
        = [⟨0, 8, 65536⟩, ⟨1, 65536, 65536⟩, ⟨2, 100000, 100000⟩]
    ∧ (∀ p ∈ (allocateAll BasicArena.empty [0, 65536, 8, 100000]).2.m_pages,
        p.cursor ≤ p.size) :=
  ⟨by decide, by decide,
   fun p hp => ((C24_cursor_within_page [0, 65536, 8, 100000] (by decide)).1 p hp).1⟩

/-- C26: for `Min` (resp. `Max`) built with a strict weak ordering `comp`, and every
stream with at least one present item, `collect` returns the first element in
source index order among the `comp`-minimal (resp. `comp`-maximal) present items,
on the sequential path, on the parallel path with any `k ≥ 2` workers and for every
hardware concurrency; the two paths return the same element. -/
theorem C26_min_max_custom_comparison {T : Type} [Inhabited T] (comp : T → T → Bool)
    (sw : StrictWeakOrder comp) (s : Ctream T) (k hc : Nat) (hk : 2 ≤ k)
    (hne : items s 0 s.m_containerSize ≠ []) :
    (IsFirstMinimal comp (items s 0 s.m_containerSize) (s.collectSeq (Min T comp))
      ∧ s.collectPar (Min T comp) k = s.collectSeq (Min T comp)
      ∧ IsFirstMinimal comp (items s 0 s.m_containerSize) (s.collectPar (Min T comp) k)
      ∧ IsFirstMinimal comp (items s 0 s.m_containerSize) (s.collect (Min T comp) hc))
    ∧ (IsFirstMaximal comp (items s 0 s.m_containerSize) (s.collectSeq (Max T comp))
      ∧ s.collectPar (Max T comp) k = s.collectSeq (Max T comp)
      ∧ IsFirstMaximal comp (items s 0 s.m_containerSize) (s.collectPar (Max T comp) k)
      ∧ IsFirstMaximal comp (items s 0 s.m_containerSize) (s.collect (Max T comp) hc)) := by
  have hk' : 0 < k := by omega
  have hmin := collectSeq_Min_first sw s hne
  have hmax := collectSeq_Max_first sw s hne
  have pmin := collectPar_eq_collectSeq_of_lawful s _ (Min_lawful_of_strictWeakOrder sw) k hk'
  have pmax := collectPar_eq_collectSeq_of_lawful s _ (Max_lawful_of_strictWeakOrder sw) k hk'
  have cmin := collect_eq_collectSeq_of_lawful s _ (Min_lawful_of_strictWeakOrder sw) hc
  have cmax := collect_eq_collectSeq_of_lawful s _ (Max_lawful_of_strictWeakOrder sw) hc
  refine ⟨⟨hmin, pmin, ?_, ?_⟩, ⟨hmax, pmax, ?_, ?_⟩⟩
  · rw [pmin]; exact hmin
  · rw [cmin]; exact hmin
  · rw [pmax]; exact hmax
  · rw [cmax]; exact hmax

/-- Witness of C26: pairs compared on their first component only, six of them on
three workers; the minimum `1` occurs at indices 1, 3 and 5, the maximum `3` at
indices 0 and 4. -/
theorem C26_min_max_custom_comparison_witness :
    2 ≤ 3
    ∧ items (toCtream ([(3, 0), (1, 1), (2, 2), (1, 3), (3, 4), (1, 5)] : List (Int × Int))) 0
        (toCtream ([(3, 0), (1, 1), (2, 2), (1, 3), (3, 4), (1, 5)] : List (Int × Int))).m_containerSize
        ≠ []
    ∧ (toCtream ([(3, 0), (1, 1), (2, 2), (1, 3), (3, 4), (1, 5)] : List (Int × Int))).collectPar
        (Min (Int × Int) (fun a b => decide (a.1 < b.1))) 3 = (1, 1)
    ∧ (toCtream ([(3, 0), (1, 1), (2, 2), (1, 3), (3, 4), (1, 5)] : List (Int × Int))).collectPar
        (Max (Int × Int) (fun a b => decide (a.1 < b.1))) 3 = (3, 0)
    ∧ (toCtream ([(3, 0), (1, 1), (2, 2), (1, 3), (3, 4), (1, 5)] : List (Int × Int))).collectPar
        (Min (Int × Int) (fun a b => decide (a.1 < b.1))) 3
      = (toCtream ([(3, 0), (1, 1), (2, 2), (1, 3), (3, 4), (1, 5)] : List (Int × Int))).collectSeq
        (Min (Int × Int) (fun a b => decide (a.1 < b.1))) :=
  ⟨by decide, by decide, by decide, by decide,
   (C26_min_max_custom_comparison (fun a b : Int × Int => decide (a.1 < b.1))
      ⟨fun a => by simp,
       fun a b c hab hbc => by simp only [decide_eq_true_eq] at *; omega,
       fun a b c h₁ h₂ h₃ h₄ => by simp only [decide_eq_false_iff_not] at *; omega⟩
      (toCtream [(3, 0), (1, 1), (2, 2), (1, 3), (3, 4), (1, 5)]) 3 1 (by decide)
      (by decide)).1.2.1⟩

/-- C21 as stated fails: four integers on two workers, a filter that throws on `2`
(first partition) and on `4` (second partition). The specification's reading
reports the error of partition 0 to the caller; the code has nothing that catches
the exception in the worker, so the program is terminated and `collect` reports
nothing. -/
theorem C21_counterexample :
    chunksThrowing (toCtream ([1, 2, 3, 4] : List Int)).m_sourceData 4
        [fun x => if x = 2 then .throws "two" else if x = 4 then .throws "four"
          else .done (some x)]
        (fun a x => .done (a + x)) (Sum Int) 2
      = [.throws "two", .throws "four"]
    ∧ specCollectParThrowing (toCtream ([1, 2, 3, 4] : List Int)).m_sourceData 4
        [fun x => if x = 2 then .throws "two" else if x = 4 then .throws "four"
          else .done (some x)]
        (fun a x => .done (a + x)) (Sum Int) 2
      = .raised "two"
    ∧ collectParThrowing (toCtream ([1, 2, 3, 4] : List Int)).m_sourceData 4
        [fun x => if x = 2 then .throws "two" else if x = 4 then .throws "four"
          else .done (some x)]
        (fun a x => .done (a + x)) (Sum Int) 2
      = .terminated
    ∧ collectParThrowing (toCtream ([1, 2, 3, 4] : List Int)).m_sourceData 4
        [fun x => if x = 2 then .throws "two" else if x = 4 then .throws "four"
          else .done (some x)]
        (fun a x => .done (a + x)) (Sum Int) 2
      ≠ specCollectParThrowing (toCtream ([1, 2, 3, 4] : List Int)).m_sourceData 4
        [fun x => if x = 2 then .throws "two" else if x = 4 then .throws "four"
          else .done (some x)]
        (fun a x => .done (a + x)) (Sum Int) 2 := by
  decide

/-- C21, amended: when a user callback (a step or `accumulate`) throws in a worker
of the parallel path, the program is terminated: `collect` reports no error to its
caller and returns no result, partial or complete; the parallel path never raises
an error to the caller; when every worker completes, the combined result is
returned, and with callbacks that never throw it is the result of the parallel
branch; on the sequential path a failure is raised to the caller and no result is
returned. -/
theorem C21_worker_failure_terminates {E H A R : Type} (sourceData : Nat → Option H)
    (containerSize : Nat) (steps : List (ThrowingStep E H)) (accumulate : A → H → Attempt E A)
    (c : Collector H A R) (s : Ctream H) (k : Nat) :
    (∀ e, Attempt.throws e ∈ chunksThrowing sourceData containerSize steps accumulate c k →
        collectParThrowing sourceData containerSize steps accumulate c k = .terminated)
    ∧ (∀ e, collectParThrowing sourceData containerSize steps accumulate c k ≠ .raised e)
    ∧ ((∀ ch ∈ chunksThrowing sourceData containerSize steps accumulate c k,
          ∃ a, ch = Attempt.done a) →
        ∃ r, collectParThrowing sourceData containerSize steps accumulate c k = .returned r)
    ∧ collectParThrowing s.m_sourceData s.m_containerSize
          (s.m_pipeline.map (liftStep : PipelineStep H → ThrowingStep E H))
          (fun a x => Attempt.done (c.accumulate a x)) c k
        = .returned (s.collectPar c k)
    ∧ (∀ e, accumulateThrowing sourceData steps accumulate
          (List.range' 0 (containerSize - 0)) c.supply = .throws e →
        collectSeqThrowing sourceData containerSize steps accumulate c = .raised e)
    ∧ collectSeqThrowing s.m_sourceData s.m_containerSize
          (s.m_pipeline.map (liftStep : PipelineStep H → ThrowingStep E H))
          (fun a x => Attempt.done (c.accumulate a x)) c
        = .returned (s.collectSeq c) := by
  refine ⟨?_, ?_, ?_, ?_, ?_, ?_⟩
  · intro e he
    simp only [collectParThrowing, joinWorkers_eq_none _ e he]
  · intro e
    unfold collectParThrowing
    cases joinWorkers (chunksThrowing sourceData containerSize steps accumulate c k) <;>
      simp
  · intro hall
    obtain ⟨cs, hcs⟩ := joinWorkers_of_all_done _ hall
    exact ⟨c.finish (cs.foldl c.combine c.supply), by simp only [collectParThrowing, hcs]⟩
  · have hch : chunksThrowing s.m_sourceData s.m_containerSize
          (s.m_pipeline.map (liftStep : PipelineStep H → ThrowingStep E H))
          (fun a x => Attempt.done (c.accumulate a x)) c k
        = (chunks s c k).map (fun a => (Attempt.done a : Attempt E A)) := by
      simp only [chunksThrowing, chunks, accumulateThrowing_lift, accumulateRange,
        List.map_map, Function.comp_def]
    simp only [collectParThrowing, hch, joinWorkers_done, collectPar]
  · intro e he
    simp only [collectSeqThrowing, he]
  · simp only [collectSeqThrowing, accumulateThrowing_lift, collectSeq, accumulateRange]

/-- Witness of C21 amended: the failing filter of the counterexample, on two
workers; and the same stream without a failing callback. -/
theorem C21_worker_failure_terminates_witness :
    Attempt.throws "four" ∈ chunksThrowing (toCtream ([1, 2, 3, 4] : List Int)).m_sourceData 4
        [fun x => if x = 2 then .throws "two" else if x = 4 then .throws "four"
          else .done (some x)]
        (fun a x => .done (a + x)) (Sum Int) 2
    ∧ collectParThrowing (toCtream ([1, 2, 3, 4] : List Int)).m_sourceData 4
        [fun x => if x = 2 then .throws "two" else if x = 4 then .throws "four"
          else .done (some x)]
        (fun a x => .done (a + x)) (Sum Int) 2
      = .terminated
    ∧ collectSeqThrowing (toCtream ([1, 2, 3, 4] : List Int)).m_sourceData 4
        [fun x => if x = 2 then .throws "two" else if x = 4 then .throws "four"
          else .done (some x)]
        (fun a x => .done (a + x)) (Sum Int)
      = .raised "two"
    ∧ collectParThrowing (toCtream ([1, 2, 3, 4] : List Int)).m_sourceData 4
        [fun x => .done (if x = 2 then none else some x)]
        (fun a x => (.done (a + x) : Attempt String Int)) (Sum Int) 2
      = .returned 8 :=
  ⟨by decide,
   (C21_worker_failure_terminates (toCtream ([1, 2, 3, 4] : List Int)).m_sourceData 4
      [fun x => if x = 2 then .throws "two" else if x = 4 then .throws "four"
        else .done (some x)]
      (fun a x => .done (a + x)) (Sum Int) (toCtream ([1, 2, 3, 4] : List Int)) 2).1
      "four" (by decide),
   by decide, by decide⟩

end ctream
